import Mathlib

/-!
# Verification of the grid single-crossing backtracking search

A shallow embedding of `src/code/grid_trial.cpp` : the preference-profile
data model (preference lists, grids with unassigned cells), the bounding-box
structure `Rect`, the validity checks (`grid_valid`, `is_monodominated`,
`has_isolated`, `admits_split_line`), the crossing counter `cnt_crosses`,
and the backtracking driver `backtr`, together with proofs of the spec's
testable properties about them.

Machine integers (`int`) are modelled as `Int` with the explicit sentinel
`INF = numeric_limits<int>::max() = 2147483647`; candidates, rows and
columns are `Nat` (they range over `{0..C-1}`, `{0..N-1}`, `{0..M-1}` in
the program).  Fallible operations (`pos`, which throws when the candidate
is absent, and `get_dominance_box`, which indexes `g[i][j][0]` and hence
faults on an empty cell) additionally get `Option`-valued embeddings
(`pos?`, `get_dominance_box?`) with `none` for the fault.
-/

/-- Individual preference list (`using Pref = vector<int>;`). -/
abbrev Pref := List Nat

/-- Placeholder for unknown preference lists (`const Pref EmptyProf = vector<int>();`). -/
def EmptyProf : Pref := []

/-- `const int INF = numeric_limits<int>::max();` -/
def INF : Int := 2147483647

/-- `pos(p, c)`: index of the first occurrence of candidate `c` in `p`;
the C++ function throws `logic_error` when `c` is absent, which the
`Option`-valued embedding `pos?` models as `none`.  This total variant
returns `p.length` at the (never taken on permutation inputs) loop exit,
matching the scan up to the `throw`. -/
def pos (p : Pref) (c : Nat) : Nat := List.indexOf c p

/-- Fault-aware embedding of `pos`: `none` models the `throw logic_error`
branch reached exactly when `c` does not occur in `p`. -/
def pos? (p : Pref) (c : Nat) : Option Nat := List.findIdx? (fun x => x == c) p

/-- `prefers(p, c0, c1)`: whether candidate `c0` is preferred over `c1`. -/
def prefers (p : Pref) (c0 c1 : Nat) : Bool := pos p c0 < pos p c1

/-- The inverse-rank array built by `cnt_crosses`:
`vector<int> inv_p0(C); for i in [0,C): inv_p0[p0[i]] = i`.
(The C++ vector is default-initialised here to zeroes via `replicate`;
on permutation inputs every entry is overwritten.) -/
def inv_of (p : Pref) (C : Nat) : List Nat :=
  (List.range C).foldl (fun a i => a.set (p.getD i 0) i) (List.replicate C 0)

/-- The iteration space of the double loop
`for c0 in [0,C): for c1 in [c0+1,C): ...` as a list of pairs. -/
def candPairs (C : Nat) : List (Nat × Nat) :=
  (List.range C).flatMap fun c0 =>
    (List.range' (c0 + 1) (C - (c0 + 1))).map fun c1 => (c0, c1)

/-- `cnt_crosses(p0, p1, C)`: the number of unordered candidate pairs put in
opposite relative order by `p0` and `p1`; the loop accumulates
`ans += ((inv_p0[c0] < inv_p0[c1]) != (inv_p1[c0] < inv_p1[c1]))`,
rendered here as the sum over the loop's iteration space of the 0/1
indicator of that disagreement. -/
def cnt_crosses (p0 p1 : Pref) (C : Nat) : Nat :=
  ((candPairs C).map fun cc =>
    if (((inv_of p0 C).getD cc.1 0 < (inv_of p0 C).getD cc.2 0) ↔
        ((inv_of p1 C).getD cc.1 0 < (inv_of p1 C).getD cc.2 0)) then 0 else 1).sum

/-- Bounding boxes (`struct Rect`). -/
structure Rect where
  r0 : Int
  r1 : Int
  c0 : Int
  c1 : Int
deriving DecidableEq

/-- The default-constructed `Rect(INF, -INF, INF, -INF)` — the empty box. -/
def Rect.empty : Rect := ⟨INF, -INF, INF, -INF⟩

/-- `Rect::add(r, c)`. -/
def Rect.add (R : Rect) (r c : Int) : Rect :=
  ⟨min R.r0 r, max R.r1 r, min R.c0 c, max R.c1 c⟩

/-- `Rect::intersects_with_horizontal(r)`. -/
def Rect.intersects_with_horizontal (R : Rect) (r : Int) : Bool :=
  R.r0 ≤ r && r < R.r1

/-- `Rect::intersects_with_vertical(c)`. -/
def Rect.intersects_with_vertical (R : Rect) (c : Int) : Bool :=
  R.c0 ≤ c && c < R.c1

/-- `do_intersect(r0, r1)`: whether two bounding boxes intersect. -/
def do_intersect (a b : Rect) : Bool :=
  if a.r0 > b.r1 then false
  else if b.r0 > a.r1 then false
  else if a.c0 > b.c1 then false
  else if b.c0 > a.c1 then false
  else true

/-- Specification-side notion: box `A` is contained in box `B` componentwise. -/
def Rect.subsetOf (A B : Rect) : Prop :=
  B.r0 ≤ A.r0 ∧ A.r1 ≤ B.r1 ∧ B.c0 ≤ A.c0 ∧ A.c1 ≤ B.c1

/-- Specification-side notion: the box contains grid point `(i, j)`. -/
def Rect.containsPoint (R : Rect) (i j : Nat) : Prop :=
  R.r0 ≤ (i : Int) ∧ (i : Int) ≤ R.r1 ∧ R.c0 ≤ (j : Int) ∧ (j : Int) ≤ R.c1

/-- Grid preference profile (`using Grid = vector<vector<Pref>>;`). -/
abbrev Grid := List (List Pref)

/-- `g[i][j]` (out-of-range reads default to the empty list; the C++ code
only ever indexes in range). -/
def cellOf (g : Grid) (i j : Nat) : Pref := (g.getD i []).getD j EmptyProf

/-- `const int N = g.size();` -/
def gridN (g : Grid) : Nat := g.length

/-- `const int M = g[0].size();` -/
def gridM (g : Grid) : Nat := (g.headD []).length

/-- In-place update `g[i][j] = p`. -/
def setCell (g : Grid) (i j : Nat) (p : Pref) : Grid :=
  g.set i ((g.getD i []).set j p)

/-- The row-major iteration space `for i in [0,N): for j in [0,M): ...`
shared by all the grid scans. -/
def gridPoints (g : Grid) : List (Nat × Nat) :=
  (List.range (gridN g)).flatMap fun i =>
    (List.range (gridM g)).map fun j => (i, j)

/-- Folding `Rect::add` over a list of grid points starting from the
default-constructed box — the accumulation pattern of the bounding-box
scans. -/
def boxOf (pts : List (Nat × Nat)) : Rect :=
  pts.foldl (fun a ij => a.add ij.1 ij.2) Rect.empty

/-- `get_preference_bounding_box(g, c0, c1)`: bounding box of the assigned
voters preferring `c0` to `c1` (cells equal to `EmptyProf` are skipped by
the explicit guard in the loop). -/
def get_preference_bounding_box (g : Grid) (c0 c1 : Nat) : Rect :=
  boxOf ((gridPoints g).filter fun ij =>
    !(cellOf g ij.1 ij.2 == EmptyProf) && prefers (cellOf g ij.1 ij.2) c0 c1)

/-- `get_dominance_box(g, c)`: bounding box of the voters whose most
preferred candidate is `c`.  The C++ loop tests `g[i][j][0] == c` with no
`EmptyProf` guard; this total variant reads the head with default `0`
(the fault on an empty cell is modelled by `get_dominance_box?`). -/
def get_dominance_box (g : Grid) (c : Nat) : Rect :=
  boxOf ((gridPoints g).filter fun ij => (cellOf g ij.1 ij.2).headD 0 == c)

/-- Fault-aware embedding of `get_dominance_box`: the read `g[i][j][0]`
is out of range when cell `(i,j)` is unassigned (`EmptyProf`), in which
case the whole scan faults (`none`). -/
def get_dominance_box? (g : Grid) (c : Nat) : Option Rect :=
  (gridPoints g).foldlM (fun a ij =>
    match (cellOf g ij.1 ij.2).head? with
    | none => none
    | some t => some (if t = c then a.add ij.1 ij.2 else a)) Rect.empty

/-- `grid_valid(g, C)`: `false` iff some unordered candidate pair has
intersecting preference bounding boxes (the early `return false` of the
double loop is the failure of the conjunction). -/
def grid_valid (g : Grid) (C : Nat) : Bool :=
  (List.range C).all fun c0 =>
    (List.range' (c0 + 1) (C - (c0 + 1))).all fun c1 =>
      !(do_intersect (get_preference_bounding_box g c0 c1)
                     (get_preference_bounding_box g c1 c0))

/-- `is_monodominated(g)`: whether the dominance box of candidate `0`
spans the whole grid. -/
def is_monodominated (g : Grid) : Bool :=
  let r := get_dominance_box g 0
  r.r0 == 0 && r.c0 == 0 && r.r1 == (gridN g : Int) - 1 && r.c1 == (gridM g : Int) - 1

/-- `has_isolated(g, C)`: whether some candidate with a nonempty dominance
box has that box strictly inside the grid (touching no border). -/
def has_isolated (g : Grid) (C : Nat) : Bool :=
  (List.range C).any fun c =>
    let r := get_dominance_box g c
    !(r.r0 == INF) &&
      (0 < r.r0 && (r.r1 < (gridN g : Int) - 1 && (0 < r.c0 && r.c1 < (gridM g : Int) - 1)))

/-- `admits_split_line(g, C)`: whether some horizontal or vertical grid
line crosses no candidate's dominance box. -/
def admits_split_line (g : Grid) (C : Nat) : Bool :=
  ((List.range (gridN g - 1)).any fun i =>
    (List.range C).all fun c =>
      !((get_dominance_box g c).intersects_with_horizontal (i : Int)))
  || ((List.range (gridM g - 1)).any fun j =>
    (List.range C).all fun c =>
      !((get_dominance_box g c).intersects_with_vertical (j : Int)))

/-- Strict lexicographic comparison of candidate lists, the order used by
`std::next_permutation` (`operator<` on `vector<int>`). -/
def lexLt : List Nat → List Nat → Bool
  | [], [] => false
  | [], _ :: _ => true
  | _ :: _, [] => false
  | a :: as, b :: bs => if a < b then true else if b < a then false else lexLt as bs

/-- Least element of a list of candidate lists under `lexLt`. -/
def minBy? : List (List Nat) → Option (List Nat)
  | [] => none
  | q :: rest =>
    match minBy? rest with
    | none => some q
    | some m => if lexLt q m then some q else some m

/-- Modelled contract of `std::next_permutation` on `p`: the
lexicographically least rearrangement of `p` strictly greater than `p`,
or `none` when `p` is the lexicographically greatest rearrangement (the
case in which `std::next_permutation` wraps around to sorted order and
returns `false`, terminating the `do ... while` loop in `backtr`). -/
def nextPermutation (p : List Nat) : Option (List Nat) :=
  minBy? (p.permutations.filter fun q => lexLt p q)

/-- The chain `p`, `nextPermutation p`, ... (bounded by `fuel`). -/
def permSeqAux : Nat → List Nat → List (List Nat)
  | 0, _ => []
  | fuel + 1, p =>
    p :: (match nextPermutation p with
          | none => []
          | some q => permSeqAux fuel q)

/-- The sequence of values the cell runs through in the
`iota; do { ... } while (next_permutation ...)` loop: the identity
permutation followed by its successive `next_permutation`s.  `C!` steps of
fuel always suffice (proved below). -/
def permSeq (C : Nat) : List (List Nat) := permSeqAux (Nat.factorial C) (List.range C)

/-- The list of preference lists `backtr` assigns to cell `(r, c)`:
only the identity at cell `(0, 0)` (the loop `break`s there after one
iteration — the symmetry-breaking fixed point), and the full
`next_permutation` chain from the identity everywhere else. -/
def cellAssignments (C r c : Nat) : List Pref :=
  if r = 0 ∧ c = 0 then [List.range C] else permSeq C

/-- The hypothesis-1 leaf test of `backtr`:
`!admits_split_line(g, C) && !is_monodominated(g)` — `true` means a
counterexample was found (the program prints the grid and `exit(1)`s). -/
def leafCheck (g : Grid) (C : Nat) : Bool :=
  !(admits_split_line g C) && !(is_monodominated g)

/-- The `do ... while (next_permutation ...)` loop of `backtr` at cell
`(r, c)`: try each assignment in turn (recursing through `f`, the
continuation `backtr` at `(r, c+1)`), propagate an abort (`exit(1)`,
second component `true`) immediately, and finally reset the cell to
`EmptyProf`.  `none` models running out of fuel. -/
def backtrLoop (f : Grid → Option (Grid × Bool)) (g : Grid) (r c : Nat) :
    List Pref → Option (Grid × Bool)
  | [] => some (setCell g r c EmptyProf, false)
  | p :: rest =>
    match f (setCell g r c p) with
    | none => none
    | some (g2, true) => some (g2, true)
    | some (g2, false) => backtrLoop f g2 r c rest

/-- The backtracking driver `backtr(g, C, r, c)`, with explicit fuel for
termination (the C++ recursion always terminates on the grids `main`
builds; `none` models fuel exhaustion and only ever arises on inputs the
program never produces).  The result is the final grid paired with `true`
iff the run aborted via `exit(1)` on a hypothesis-1 counterexample. -/
def backtr : Nat → Grid → Nat → Nat → Nat → Option (Grid × Bool)
  | 0, _, _, _, _ => none
  | fuel + 1, g, C, r, c =>
    if grid_valid g C = false then some (g, false)
    else if r = gridN g then some (g, leafCheck g C)
    else if c = gridM g then backtr fuel g C (r + 1) 0
    else backtrLoop (fun g2 => backtr fuel g2 C r (c + 1)) g r c (cellAssignments C r c)

/-- The all-unassigned starting grid built in `main`:
`Grid g(vector<vector<Pref>>(N, vector<Pref>(M, EmptyProf)));`. -/
def initGrid (N M : Nat) : Grid := List.replicate N (List.replicate M EmptyProf)

/-- One recursive call of `backtr`: the step relation on `(grid, r, c)`
configurations, transcribing the two recursion sites of the function
(after the `grid_valid` prune and the `r == N` leaf test).  The grid
passed at each iteration of the assignment loop is `setCell g r c p`
because every completed recursive call restores its grid (the frame
property `backtr_frame_core` below). -/
inductive Calls (C : Nat) : Grid × Nat × Nat → Grid × Nat × Nat → Prop
  | nextRow (g : Grid) (r : Nat) :
      grid_valid g C = true → r ≠ gridN g →
      Calls C (g, r, gridM g) (g, r + 1, 0)
  | assignCell (g : Grid) (r c : Nat) (p : Pref) :
      grid_valid g C = true → r ≠ gridN g → c ≠ gridM g →
      p ∈ cellAssignments C r c →
      Calls C (g, r, c) (setCell g r c p, r, c + 1)

/-- Configurations reachable from the initial call `backtr(g, C, 0, 0)`
on the all-unassigned `N×M` grid. -/
def Reaches (C N M : Nat) (s : Grid × Nat × Nat) : Prop :=
  Relation.ReflTransGen (Calls C) (initGrid N M, 0, 0) s

/-- Every in-range cell at row-major position `(r, c)` or later is
unassigned. -/
def SuffixEmpty (g : Grid) (r c : Nat) : Prop :=
  ∀ i j, i < gridN g → j < gridM g → (r < i ∨ (r = i ∧ c ≤ j)) →
    cellOf g i j = EmptyProf

/-- All rows of the grid have the length of row `0` (always true of the
grids the program builds). -/
def UniformRows (g : Grid) : Prop := ∀ row ∈ g, row.length = gridM g

/-- The documented hypothesis-2 counterexample grid (N = M = 3, C = 5):
`01234 02134 03214 / 12304 21304 32104 / 41230 42130 43210`. -/
def scenarioC : Grid :=
  [[[0, 1, 2, 3, 4], [0, 2, 1, 3, 4], [0, 3, 2, 1, 4]],
   [[1, 2, 3, 0, 4], [2, 1, 3, 0, 4], [3, 2, 1, 0, 4]],
   [[4, 1, 2, 3, 0], [4, 2, 1, 3, 0], [4, 3, 2, 1, 0]]]

/-- Componentwise view of the `Rect.add` fold: running minimum of `f` over
the points, seeded with `a` (proof infrastructure). -/
def foldlMin (f : Nat × Nat → Int) (a : Int) (pts : List (Nat × Nat)) : Int :=
  pts.foldl (fun m x => min m (f x)) a

/-- Componentwise view of the `Rect.add` fold: running maximum. -/
def foldlMax (f : Nat × Nat → Int) (a : Int) (pts : List (Nat × Nat)) : Int :=
  pts.foldl (fun m x => max m (f x)) a

/-- The number of rearrangements of `p` that are lexicographically at or
above `p` (the termination measure of the `next_permutation` chain). -/
def permsAbove (p : List Nat) : Nat :=
  (p.permutations.filter fun q => !(lexLt q p)).length

/-- The search invariant carried by every reachable configuration
`(g, r, c)`: uniform row lengths, cursor in range, every in-range cell
strictly before the cursor in row-major order a permutation of
`{0..C-1}` (the identity at `(0,0)`), and every in-range cell at or
after the cursor unassigned. -/
def SearchInv (C : Nat) (s : Grid × Nat × Nat) : Prop :=
  UniformRows s.1 ∧ s.2.1 ≤ gridN s.1 ∧ s.2.2 ≤ gridM s.1 ∧
  (∀ i j, i < gridN s.1 → j < gridM s.1 →
    (i < s.2.1 ∨ (i = s.2.1 ∧ j < s.2.2)) →
    (cellOf s.1 i j).Perm (List.range C) ∧
      (i = 0 → j = 0 → cellOf s.1 i j = List.range C)) ∧
  (∀ i j, i < gridN s.1 → j < gridM s.1 →
    (s.2.1 < i ∨ (s.2.1 = i ∧ s.2.2 ≤ j)) → cellOf s.1 i j = EmptyProf)

/- ------------------------------------------------------------------ -/
/- Theorems.                                                           -/
/- ------------------------------------------------------------------ -/

/- Generic list helpers. -/

theorem set_getD_self {α : Type} (l : List α) (n : Nat) (d : α) (h : n < l.length) :
    l.set n (l.getD n d) = l := by
  apply List.ext_getElem?
  intro m
  rcases eq_or_ne n m with rfl | hm
  · rw [List.getElem?_set_self h, List.getD_eq_getElem l d h, List.getElem?_eq_getElem h]
  · rw [List.getElem?_set_ne hm]

theorem getD_of_length_le {α : Type} {l : List α} {n : Nat} (h : l.length ≤ n) (d : α) :
    l.getD n d = d := by
  rw [List.getD_eq_getElem?_getD, List.getElem?_eq_none h, Option.getD_none]

/- Grid cell access and update. -/

theorem gridN_setCell (g : Grid) (i j : Nat) (p : Pref) :
    gridN (setCell g i j p) = gridN g :=
  List.length_set g i _

theorem gridM_setCell (g : Grid) (i j : Nat) (p : Pref) :
    gridM (setCell g i j p) = gridM g := by
  cases g with
  | nil => rfl
  | cons row t =>
    cases i with
    | zero => simp [setCell, gridM]
    | succ i => simp [setCell, gridM]

theorem cellOf_setCell_ne (g : Grid) {i j i' j' : Nat} (p : Pref)
    (h : ¬(i = i' ∧ j = j')) :
    cellOf (setCell g i j p) i' j' = cellOf g i' j' := by
  unfold cellOf setCell
  rcases eq_or_ne i i' with rfl | hi
  · have hj : j ≠ j' := fun hj => h ⟨rfl, hj⟩
    by_cases hlen : i < g.length
    · rw [List.getD_eq_getElem?_getD (g.set i _), List.getElem?_set_self hlen,
        Option.getD_some, List.getD_eq_getElem?_getD ((g.getD i []).set j p),
        List.getElem?_set_ne hj, ← List.getD_eq_getElem?_getD]
    · rw [List.set_eq_of_length_le (Nat.le_of_not_lt hlen)]
  · rw [List.getD_eq_getElem?_getD (g.set i _), List.getElem?_set_ne hi,
      ← List.getD_eq_getElem?_getD]

theorem cellOf_setCell_self (g : Grid) {i j : Nat} (p : Pref) (hi : i < g.length)
    (hj : j < (g.getD i []).length) : cellOf (setCell g i j p) i j = p := by
  unfold cellOf setCell
  rw [List.getD_eq_getElem?_getD (g.set i _), List.getElem?_set_self hi,
    Option.getD_some, List.getD_eq_getElem?_getD, List.getElem?_set_self hj,
    Option.getD_some]

theorem setCell_setCell (g : Grid) (i j : Nat) (p q : Pref) :
    setCell (setCell g i j p) i j q = setCell g i j q := by
  unfold setCell
  by_cases hlen : i < g.length
  · have h1 : (g.set i ((g.getD i []).set j p)).getD i [] = (g.getD i []).set j p := by
      rw [List.getD_eq_getElem?_getD, List.getElem?_set_self hlen, Option.getD_some]
    rw [h1, List.set_set, List.set_set]
  · have h0 : g.set i ((g.getD i []).set j p) = g :=
      List.set_eq_of_length_le (Nat.le_of_not_lt hlen)
    rw [h0]

theorem setCell_empty_self (g : Grid) (i j : Nat) (h : cellOf g i j = EmptyProf) :
    setCell g i j EmptyProf = g := by
  unfold setCell
  by_cases hi : i < g.length
  · by_cases hj : j < (g.getD i []).length
    · have : (g.getD i []).set j EmptyProf = g.getD i [] := by
        have := set_getD_self (g.getD i []) j EmptyProf hj
        rwa [show (g.getD i []).getD j EmptyProf = EmptyProf from h] at this
      rw [this, set_getD_self g i [] hi]
    · rw [List.set_eq_of_length_le (Nat.le_of_not_lt hj), set_getD_self g i [] hi]
  · rw [List.set_eq_of_length_le (Nat.le_of_not_lt hi)]

theorem cellOf_setCell_empty (g : Grid) (i j : Nat) :
    cellOf (setCell g i j EmptyProf) i j = EmptyProf := by
  by_cases hi : i < g.length
  · by_cases hj : j < (g.getD i []).length
    · exact cellOf_setCell_self g EmptyProf hi hj
    · unfold cellOf setCell
      rw [List.set_eq_of_length_le (Nat.le_of_not_lt hj), set_getD_self g i [] hi]
      exact getD_of_length_le (Nat.le_of_not_lt hj) EmptyProf
  · unfold cellOf setCell
    rw [List.set_eq_of_length_le (Nat.le_of_not_lt hi)]
    rw [getD_of_length_le (Nat.le_of_not_lt hi) ([] : List Pref)]
    rfl

theorem uniformRows_setCell {g : Grid} (h : UniformRows g) (i j : Nat) (p : Pref) :
    UniformRows (setCell g i j p) := by
  intro row hrow
  rw [gridM_setCell]
  by_cases hi : i < g.length
  · rcases List.mem_or_eq_of_mem_set hrow with h1 | h1
    · exact h row h1
    · subst h1
      rw [List.length_set]
      refine h (g.getD i []) ?_
      rw [List.getD_eq_getElem g [] hi]
      exact List.getElem_mem hi
  · rw [show setCell g i j p = g from List.set_eq_of_length_le (Nat.le_of_not_lt hi)] at hrow
    exact h row hrow

/- Running-minimum / running-maximum fold lemmas. -/

theorem foldlMin_cons (f : Nat × Nat → Int) (a : Int) (x : Nat × Nat)
    (pts : List (Nat × Nat)) : foldlMin f a (x :: pts) = foldlMin f (min a (f x)) pts := rfl

theorem foldlMax_cons (f : Nat × Nat → Int) (a : Int) (x : Nat × Nat)
    (pts : List (Nat × Nat)) : foldlMax f a (x :: pts) = foldlMax f (max a (f x)) pts := rfl

theorem foldlMin_le_init (f : Nat × Nat → Int) (pts : List (Nat × Nat)) :
    ∀ a : Int, foldlMin f a pts ≤ a := by
  induction pts with
  | nil => intro a; exact le_refl a
  | cons x pts ih =>
    intro a
    rw [foldlMin_cons]
    exact le_trans (ih _) (min_le_left _ _)

theorem foldlMax_init_le (f : Nat × Nat → Int) (pts : List (Nat × Nat)) :
    ∀ a : Int, a ≤ foldlMax f a pts := by
  induction pts with
  | nil => intro a; exact le_refl a
  | cons x pts ih =>
    intro a
    rw [foldlMax_cons]
    exact le_trans (le_max_left _ _) (ih _)

theorem foldlMin_mono (f : Nat × Nat → Int) (pts : List (Nat × Nat)) :
    ∀ {a b : Int}, a ≤ b → foldlMin f a pts ≤ foldlMin f b pts := by
  induction pts with
  | nil => intro a b h; exact h
  | cons x pts ih =>
    intro a b h
    rw [foldlMin_cons, foldlMin_cons]
    exact ih (min_le_min h (le_refl (f x)))

theorem foldlMax_mono (f : Nat × Nat → Int) (pts : List (Nat × Nat)) :
    ∀ {a b : Int}, a ≤ b → foldlMax f a pts ≤ foldlMax f b pts := by
  induction pts with
  | nil => intro a b h; exact h
  | cons x pts ih =>
    intro a b h
    rw [foldlMax_cons, foldlMax_cons]
    exact ih (max_le_max h (le_refl (f x)))

theorem foldlMin_le_mem (f : Nat × Nat → Int) {x : Nat × Nat} :
    ∀ (pts : List (Nat × Nat)) (a : Int), x ∈ pts → foldlMin f a pts ≤ f x := by
  intro pts
  induction pts with
  | nil => intro a h; exact absurd h (List.not_mem_nil x)
  | cons y pts ih =>
    intro a h
    rw [foldlMin_cons]
    rcases List.mem_cons.1 h with rfl | h
    · exact le_trans (foldlMin_le_init f pts _) (min_le_right _ _)
    · exact ih _ h

theorem foldlMax_mem_le (f : Nat × Nat → Int) {x : Nat × Nat} :
    ∀ (pts : List (Nat × Nat)) (a : Int), x ∈ pts → f x ≤ foldlMax f a pts := by
  intro pts
  induction pts with
  | nil => intro a h; exact absurd h (List.not_mem_nil x)
  | cons y pts ih =>
    intro a h
    rw [foldlMax_cons]
    rcases List.mem_cons.1 h with rfl | h
    · exact le_trans (le_max_right _ _) (foldlMax_init_le f pts _)
    · exact ih _ h

theorem foldlMin_attain (f : Nat × Nat → Int) :
    ∀ (pts : List (Nat × Nat)) (a : Int),
      foldlMin f a pts = a ∨ ∃ x ∈ pts, foldlMin f a pts = f x := by
  intro pts
  induction pts with
  | nil => intro a; exact Or.inl rfl
  | cons x pts ih =>
    intro a
    rw [foldlMin_cons]
    rcases ih (min a (f x)) with h | ⟨y, hy, h⟩
    · rcases min_choice a (f x) with hm | hm
      · exact Or.inl (h.trans hm)
      · exact Or.inr ⟨x, List.mem_cons_self x pts, h.trans hm⟩
    · exact Or.inr ⟨y, List.mem_cons_of_mem x hy, h⟩

theorem foldlMax_attain (f : Nat × Nat → Int) :
    ∀ (pts : List (Nat × Nat)) (a : Int),
      foldlMax f a pts = a ∨ ∃ x ∈ pts, foldlMax f a pts = f x := by
  intro pts
  induction pts with
  | nil => intro a; exact Or.inl rfl
  | cons x pts ih =>
    intro a
    rw [foldlMax_cons]
    rcases ih (max a (f x)) with h | ⟨y, hy, h⟩
    · rcases max_choice a (f x) with hm | hm
      · exact Or.inl (h.trans hm)
      · exact Or.inr ⟨x, List.mem_cons_self x pts, h.trans hm⟩
    · exact Or.inr ⟨y, List.mem_cons_of_mem x hy, h⟩

theorem foldlMin_sublist (f : Nat × Nat → Int) {pts pts' : List (Nat × Nat)}
    (h : pts.Sublist pts') : ∀ a : Int, foldlMin f a pts' ≤ foldlMin f a pts := by
  induction h with
  | slnil => intro a; exact le_refl _
  | cons y h ih =>
    intro a
    rw [foldlMin_cons]
    exact le_trans (ih _) (foldlMin_mono f _ (min_le_left _ _))
  | cons₂ y h ih =>
    intro a
    rw [foldlMin_cons, foldlMin_cons]
    exact ih _

theorem foldlMax_sublist (f : Nat × Nat → Int) {pts pts' : List (Nat × Nat)}
    (h : pts.Sublist pts') : ∀ a : Int, foldlMax f a pts ≤ foldlMax f a pts' := by
  induction h with
  | slnil => intro a; exact le_refl _
  | cons y h ih =>
    intro a
    rw [foldlMax_cons]
    exact le_trans (ih _) (foldlMax_mono f _ (le_max_left _ _))
  | cons₂ y h ih =>
    intro a
    rw [foldlMax_cons, foldlMax_cons]
    exact ih _

/- Decomposition of the `Rect.add` fold into the four component folds. -/

theorem foldl_add_decomp :
    ∀ (pts : List (Nat × Nat)) (R : Rect),
      pts.foldl (fun a ij => a.add ij.1 ij.2) R =
        ⟨foldlMin (fun ij => (ij.1 : Int)) R.r0 pts,
         foldlMax (fun ij => (ij.1 : Int)) R.r1 pts,
         foldlMin (fun ij => (ij.2 : Int)) R.c0 pts,
         foldlMax (fun ij => (ij.2 : Int)) R.c1 pts⟩ := by
  intro pts
  induction pts with
  | nil => intro R; rfl
  | cons x pts ih =>
    intro R
    rw [List.foldl_cons, ih (R.add x.1 x.2)]
    rfl

theorem boxOf_decomp (pts : List (Nat × Nat)) :
    boxOf pts =
      ⟨foldlMin (fun ij => (ij.1 : Int)) INF pts,
       foldlMax (fun ij => (ij.1 : Int)) (-INF) pts,
       foldlMin (fun ij => (ij.2 : Int)) INF pts,
       foldlMax (fun ij => (ij.2 : Int)) (-INF) pts⟩ :=
  foldl_add_decomp pts Rect.empty

theorem boxOf_contains {pts : List (Nat × Nat)} {x : Nat × Nat} (hx : x ∈ pts) :
    (boxOf pts).containsPoint x.1 x.2 := by
  rw [boxOf_decomp]
  exact ⟨foldlMin_le_mem _ pts _ hx, foldlMax_mem_le _ pts _ hx,
         foldlMin_le_mem _ pts _ hx, foldlMax_mem_le _ pts _ hx⟩

theorem boxOf_subsetOf {pts pts' : List (Nat × Nat)} (h : pts.Sublist pts') :
    (boxOf pts).subsetOf (boxOf pts') := by
  rw [boxOf_decomp, boxOf_decomp]
  exact ⟨foldlMin_sublist _ h _, foldlMax_sublist _ h _,
         foldlMin_sublist _ h _, foldlMax_sublist _ h _⟩

theorem boxOf_r0_attain (pts : List (Nat × Nat)) :
    (boxOf pts).r0 = INF ∨ ∃ x ∈ pts, (boxOf pts).r0 = (x.1 : Int) := by
  rw [boxOf_decomp]
  exact foldlMin_attain _ pts INF

theorem boxOf_r1_attain (pts : List (Nat × Nat)) :
    (boxOf pts).r1 = -INF ∨ ∃ x ∈ pts, (boxOf pts).r1 = (x.1 : Int) := by
  rw [boxOf_decomp]
  exact foldlMax_attain _ pts (-INF)

theorem boxOf_c0_attain (pts : List (Nat × Nat)) :
    (boxOf pts).c0 = INF ∨ ∃ x ∈ pts, (boxOf pts).c0 = (x.2 : Int) := by
  rw [boxOf_decomp]
  exact foldlMin_attain _ pts INF

theorem boxOf_c1_attain (pts : List (Nat × Nat)) :
    (boxOf pts).c1 = -INF ∨ ∃ x ∈ pts, (boxOf pts).c1 = (x.2 : Int) := by
  rw [boxOf_decomp]
  exact foldlMax_attain _ pts (-INF)

theorem boxOf_nil : boxOf [] = Rect.empty := rfl

/- Intersection test. -/

theorem do_intersect_iff (a b : Rect) :
    do_intersect a b = true ↔
      a.r0 ≤ b.r1 ∧ b.r0 ≤ a.r1 ∧ a.c0 ≤ b.c1 ∧ b.c0 ≤ a.c1 := by
  unfold do_intersect
  split_ifs with h1 h2 h3 h4 <;> simp <;> omega

theorem do_intersect_mono {A A' B B' : Rect} (hA : A.subsetOf A') (hB : B.subsetOf B')
    (h : do_intersect A B = true) : do_intersect A' B' = true := by
  rw [do_intersect_iff] at h ⊢
  obtain ⟨a1, a2, a3, a4⟩ := hA
  obtain ⟨b1, b2, b3, b4⟩ := hB
  obtain ⟨h1, h2, h3, h4⟩ := h
  exact ⟨le_trans a1 (le_trans h1 b2), le_trans b1 (le_trans h2 a2),
         le_trans a3 (le_trans h3 b4), le_trans b3 (le_trans h4 a4)⟩

/- Grid scan iteration space. -/

theorem mem_gridPoints {g : Grid} {ij : Nat × Nat} :
    ij ∈ gridPoints g ↔ ij.1 < gridN g ∧ ij.2 < gridM g := by
  obtain ⟨i, j⟩ := ij
  simp only [gridPoints, List.mem_flatMap, List.mem_map, List.mem_range, Prod.mk.injEq]
  constructor
  · rintro ⟨a, ha, b, hb, rfl, rfl⟩
    exact ⟨ha, hb⟩
  · rintro ⟨hi, hj⟩
    exact ⟨i, hi, j, hj, rfl, rfl⟩

theorem gridPoints_setCell (g : Grid) (i j : Nat) (p : Pref) :
    gridPoints (setCell g i j p) = gridPoints g := by
  unfold gridPoints
  rw [gridN_setCell, gridM_setCell]

/- Monotonicity of the preference bounding boxes under assigning one
previously-unassigned cell. -/

theorem gpbb_subsetOf_setCell {g : Grid} {i j : Nat} (p : Pref)
    (hcell : cellOf g i j = EmptyProf) (c0 c1 : Nat) :
    (get_preference_bounding_box g c0 c1).subsetOf
      (get_preference_bounding_box (setCell g i j p) c0 c1) := by
  unfold get_preference_bounding_box
  apply boxOf_subsetOf
  rw [gridPoints_setCell]
  apply List.monotone_filter_right
  intro a ha
  by_cases hij : i = a.1 ∧ j = a.2
  · exfalso
    rw [show a.1 = i from hij.1.symm, show a.2 = j from hij.2.symm, hcell] at ha
    simp at ha
  · rwa [cellOf_setCell_ne g p hij]

/- Characterizations of `grid_valid`. -/

theorem grid_valid_eq_false_iff (g : Grid) (C : Nat) :
    grid_valid g C = false ↔ ∃ c0 c1, c0 < c1 ∧ c1 < C ∧
      do_intersect (get_preference_bounding_box g c0 c1)
                   (get_preference_bounding_box g c1 c0) = true := by
  unfold grid_valid
  simp only [List.all_eq_false, List.mem_range, List.mem_range'_1, Bool.not_eq_true,
    Bool.not_eq_false, Bool.not_eq_true', Bool.not_eq_false']
  constructor
  · rintro ⟨c0, hc0, c1, hc1, h⟩
    exact ⟨c0, c1, by omega, by omega, h⟩
  · rintro ⟨c0, c1, h01, h1C, h⟩
    exact ⟨c0, by omega, c1, ⟨by omega, by omega⟩, h⟩

theorem grid_valid_eq_true_iff (g : Grid) (C : Nat) :
    grid_valid g C = true ↔ ∀ c0 c1, c0 < c1 → c1 < C →
      do_intersect (get_preference_bounding_box g c0 c1)
                   (get_preference_bounding_box g c1 c0) = false := by
  constructor
  · intro h c0 c1 h01 h1C
    by_contra hne
    rw [Bool.not_eq_false] at hne
    have h2 := (grid_valid_eq_false_iff g C).2 ⟨c0, c1, h01, h1C, hne⟩
    rw [h] at h2
    cases h2
  · intro h
    by_contra hne
    rw [Bool.not_eq_true] at hne
    obtain ⟨c0, c1, h01, h1C, hint⟩ := (grid_valid_eq_false_iff g C).1 hne
    rw [h c0 c1 h01 h1C] at hint
    cases hint

/-- C1 (pruning soundness / feasibility monotonicity): for every grid
profile `g` with an unassigned cell `(i, j)`, if `grid_valid g C` is
`false` then it is still `false` after assigning any preference list
(permutation of `{0..C-1}`) to that cell; hence abandoning a subtree when
`grid_valid` fails skips no valid completion. -/
theorem grid_valid_monotone (g : Grid) (C i j : Nat) (p : Pref)
    (hi : i < g.length) (hj : j < (g.getD i []).length)
    (hcell : cellOf g i j = EmptyProf) (hp : p.Perm (List.range C))
    (hfail : grid_valid g C = false) : grid_valid (setCell g i j p) C = false := by
  obtain ⟨c0, c1, h01, h1C, hint⟩ := (grid_valid_eq_false_iff g C).1 hfail
  refine (grid_valid_eq_false_iff (setCell g i j p) C).2 ⟨c0, c1, h01, h1C, ?_⟩
  exact do_intersect_mono (gpbb_subsetOf_setCell p hcell c0 c1)
    (gpbb_subsetOf_setCell p hcell c1 c0) hint

/-- Witness for `grid_valid_monotone`: a concrete 2×2 partial profile with
`C = 2` that already fails `grid_valid`, an unassigned cell `(1,1)`, and a
concrete permutation assigned there. -/
theorem grid_valid_monotone_witness :
    (1 : Nat) < ([[[0, 1], [1, 0]], [[1, 0], []]] : Grid).length ∧
    (1 : Nat) < (([[[0, 1], [1, 0]], [[1, 0], []]] : Grid).getD 1 []).length ∧
    cellOf [[[0, 1], [1, 0]], [[1, 0], []]] 1 1 = EmptyProf ∧
    ([0, 1] : Pref).Perm (List.range 2) ∧
    grid_valid [[[0, 1], [1, 0]], [[1, 0], []]] 2 = false ∧
    grid_valid (setCell [[[0, 1], [1, 0]], [[1, 0], []]] 1 1 [0, 1]) 2 = false :=
  ⟨by decide, by decide, by decide, by decide, by decide,
   grid_valid_monotone _ 2 1 1 _ (by decide) (by decide) (by decide) (by decide) (by decide)⟩

/-- C7 (`Rect::add` algebra): adding points commutes, is idempotent, and is
monotone (the result contains the original box and the added point), and
the default-constructed empty box is the identity: adding an
`int`-representable point to it gives exactly the singleton box. -/
theorem rect_add_spec (R : Rect) (r c r' c' : Int) :
    (R.add r c).add r' c' = (R.add r' c').add r c ∧
    (R.add r c).add r c = R.add r c ∧
    R.subsetOf (R.add r c) ∧
    ((R.add r c).r0 ≤ r ∧ r ≤ (R.add r c).r1 ∧ (R.add r c).c0 ≤ c ∧ c ≤ (R.add r c).c1) ∧
    (-INF ≤ r → r ≤ INF → -INF ≤ c → c ≤ INF → Rect.empty.add r c = ⟨r, r, c, c⟩) := by
  refine ⟨?_, ?_, ?_, ?_, ?_⟩
  · unfold Rect.add
    simp only [Rect.mk.injEq]
    refine ⟨?_, ?_, ?_, ?_⟩ <;>
      simp [min_assoc, max_assoc, min_comm r r', max_comm r r', min_comm c c', max_comm c c']
  · unfold Rect.add
    simp [min_assoc, max_assoc]
  · exact ⟨min_le_left _ _, le_max_left _ _, min_le_left _ _, le_max_left _ _⟩
  · exact ⟨min_le_right _ _, le_max_right _ _, min_le_right _ _, le_max_right _ _⟩
  · intro h1 h2 h3 h4
    show (⟨min INF r, max (-INF) r, min INF c, max (-INF) c⟩ : Rect) = ⟨r, r, c, c⟩
    rw [min_eq_right h2, max_eq_right h1, min_eq_right h4, max_eq_right h3]

/-- Witness for `rect_add_spec` at a concrete box and concrete points. -/
theorem rect_add_spec_witness :
    (-INF ≤ (2 : Int)) ∧ ((2 : Int) ≤ INF) ∧ (-INF ≤ (3 : Int)) ∧ ((3 : Int) ≤ INF) ∧
    Rect.empty.add 2 3 = ⟨2, 2, 3, 3⟩ :=
  ⟨by decide, by decide, by decide, by decide,
   (rect_add_spec ⟨0, 1, 0, 1⟩ 2 3 4 5).2.2.2.2 (by decide) (by decide) (by decide) (by decide)⟩

/-- C5 (end-to-end scenario C): on the documented 3×3, C = 5 profile
`01234 02134 03214 / 12304 21304 32104 / 41230 42130 43210`,
`has_isolated` returns `true` — candidate 2's dominance box is the single
interior cell `(1,1)`, touching no border. -/
theorem has_isolated_scenarioC : has_isolated scenarioC 5 = true := by decide

/- `pos` / `pos?` bridge. -/

theorem pos?_eq_some_pos {p : Pref} {c : Nat} (h : c ∈ p) :
    pos? p c = some (pos p c) := by
  induction p with
  | nil => cases h
  | cons a t ih =>
    show List.findIdx? (fun x => x == c) (a :: t) = some (List.indexOf c (a :: t))
    rw [List.findIdx?_cons]
    rcases eq_or_ne a c with rfl | hac
    · rw [if_pos (by simp), List.indexOf_cons_self]
    · have hc : c ∈ t := by
        rcases List.mem_cons.1 h with rfl | hmem
        · exact absurd rfl hac
        · exact hmem
      have ih2 := ih hc
      unfold pos? pos at ih2
      rw [if_neg (by simp [hac]), List.findIdx?_succ, ih2, List.indexOf_cons_ne t hac]
      rfl

/-- C8 (`pos` error handling): whenever candidate `c` occurs in `p`, `pos`
returns the index of `c` (no throw, modelled by `pos? p c = some _`); the
throwing branch (`pos? p c = none`) is taken iff `c` does not occur in `p`;
consequently, when `p` is a permutation of `{0..C-1}` and `c < C`, the
error branch is unreachable. -/
theorem pos_spec (p : Pref) (c C : Nat) :
    (c ∈ p → pos? p c = some (pos p c) ∧ p[pos p c]? = some c) ∧
    (pos? p c = none ↔ c ∉ p) ∧
    (p.Perm (List.range C) → c < C → pos? p c ≠ none) := by
  refine ⟨?_, ?_, ?_⟩
  · intro h
    refine ⟨pos?_eq_some_pos h, ?_⟩
    have hlt : pos p c < p.length := List.indexOf_lt_length.2 h
    rw [List.getElem?_eq_getElem hlt]
    exact congrArg some (List.getElem_indexOf hlt)
  · rw [show pos? p c = List.findIdx? (fun x => x == c) p from rfl,
      List.findIdx?_eq_none_iff]
    constructor
    · intro h hc
      have := h c hc
      simp at this
    · intro h x hx
      simp only [beq_eq_false_iff_ne]
      rintro rfl
      exact h hx
  · intro hperm hC
    have hc : c ∈ p := hperm.mem_iff.2 (List.mem_range.2 hC)
    rw [pos?_eq_some_pos hc]
    simp

/-- Witness for `pos_spec` on the concrete list `[1, 0]` and candidate `0`. -/
theorem pos_spec_witness :
    (0 : Nat) ∈ ([1, 0] : Pref) ∧ pos? [1, 0] 0 = some (pos [1, 0] 0) ∧
    ([1, 0] : Pref).Perm (List.range 2) ∧ (0 : Nat) < 2 ∧ pos? [1, 0] 0 ≠ none :=
  ⟨by decide, ((pos_spec [1, 0] 0 2).1 (by decide)).1, by decide, by decide,
   (pos_spec [1, 0] 0 2).2.2 (by decide) (by decide)⟩

/- The faulting dominance-box scan agrees with the total one on grids
whose scanned cells are all assigned. -/

theorem domFold_eq (g : Grid) (c : Nat) :
    ∀ (pts : List (Nat × Nat)) (R : Rect),
      (∀ ij ∈ pts, cellOf g ij.1 ij.2 ≠ EmptyProf) →
      (pts.foldlM (fun a ij =>
        match (cellOf g ij.1 ij.2).head? with
        | none => none
        | some t => some (if t = c then a.add ij.1 ij.2 else a)) R
        : Option Rect)
      = some ((pts.filter fun ij => (cellOf g ij.1 ij.2).headD 0 == c).foldl
          (fun a ij => a.add ij.1 ij.2) R) := by
  intro pts
  induction pts with
  | nil => intro R h; rfl
  | cons x pts ih =>
    intro R h
    have hx : cellOf g x.1 x.2 ≠ EmptyProf := h x (List.mem_cons_self x pts)
    obtain ⟨t, rest, ht⟩ : ∃ t rest, cellOf g x.1 x.2 = t :: rest := by
      cases hcell : cellOf g x.1 x.2 with
      | nil => exact absurd hcell hx
      | cons t rest => exact ⟨t, rest, rfl⟩
    have hrec := ih R (fun ij hij => h ij (List.mem_cons_of_mem x hij))
    rw [List.foldlM_cons, ht]
    simp only [List.head?_cons]
    rcases eq_or_ne t c with rfl | htc
    · rw [if_pos rfl]
      have hfil : (List.filter (fun ij => (cellOf g ij.1 ij.2).headD 0 == t) (x :: pts))
          = x :: List.filter (fun ij => (cellOf g ij.1 ij.2).headD 0 == t) pts :=
        List.filter_cons_of_pos (by rw [ht]; simp)
      rw [hfil, List.foldl_cons]
      have hrec2 := ih (R.add x.1 x.2) (fun ij hij => h ij (List.mem_cons_of_mem x hij))
      simpa using hrec2
    · rw [if_neg htc]
      have hfil : (List.filter (fun ij => (cellOf g ij.1 ij.2).headD 0 == c) (x :: pts))
          = List.filter (fun ij => (cellOf g ij.1 ij.2).headD 0 == c) pts :=
        List.filter_cons_of_neg (by rw [ht]; simp [htc])
      rw [hfil]
      simpa using hrec

theorem get_dominance_box?_eq_some {g : Grid} (c : Nat)
    (h : ∀ i j, i < gridN g → j < gridM g → cellOf g i j ≠ EmptyProf) :
    get_dominance_box? g c = some (get_dominance_box g c) := by
  unfold get_dominance_box? get_dominance_box boxOf
  exact domFold_eq g c (gridPoints g) Rect.empty
    (fun ij hij => h ij.1 ij.2 (mem_gridPoints.1 hij).1 (mem_gridPoints.1 hij).2)

/-- C3 counterexample: on the 1×1 grid whose only cell is unassigned,
`get_dominance_box` evaluates `g[0][0][0]`, an out-of-range read of the
empty preference list, so the scan faults instead of skipping the
unassigned cell and returning the empty box. -/
theorem get_dominance_box_faults_on_unassigned :
    get_dominance_box? [[([] : Pref)]] 0 = none := by decide

/-- C3 (amended): on grids all of whose in-range cells are assigned (the
only grids the program ever passes to it), `get_dominance_box(g, c)` does
not fault and returns exactly the bounding box of the voters whose top
candidate is `c`: it contains every such voter, and is either the empty
box (when no voter has top `c`) or has each of its four bounds attained
by such a voter.  (On a partial grid the scan faults — see
`get_dominance_box_faults_on_unassigned` — because the `g[i][j][0]` read
has no `EmptyProf` guard.) -/
theorem get_dominance_box_spec (g : Grid) (c : Nat)
    (hcomplete : ∀ i j, i < gridN g → j < gridM g → cellOf g i j ≠ EmptyProf)
    (hN : (gridN g : Int) ≤ INF) (hM : (gridM g : Int) ≤ INF) :
    get_dominance_box? g c = some (get_dominance_box g c) ∧
    (∀ i j, i < gridN g → j < gridM g → (cellOf g i j).headD 0 = c →
      (get_dominance_box g c).containsPoint i j) ∧
    ((get_dominance_box g c = Rect.empty ∧
        ∀ i j, i < gridN g → j < gridM g → (cellOf g i j).headD 0 ≠ c) ∨
     ((∃ i j, i < gridN g ∧ j < gridM g ∧ (cellOf g i j).headD 0 = c ∧
         (get_dominance_box g c).r0 = (i : Int)) ∧
      (∃ i j, i < gridN g ∧ j < gridM g ∧ (cellOf g i j).headD 0 = c ∧
         (get_dominance_box g c).r1 = (i : Int)) ∧
      (∃ i j, i < gridN g ∧ j < gridM g ∧ (cellOf g i j).headD 0 = c ∧
         (get_dominance_box g c).c0 = (j : Int)) ∧
      (∃ i j, i < gridN g ∧ j < gridM g ∧ (cellOf g i j).headD 0 = c ∧
         (get_dominance_box g c).c1 = (j : Int)))) := by
  refine ⟨get_dominance_box?_eq_some c hcomplete, ?_, ?_⟩
  · intro i j hi hj htop
    have hmem : (i, j) ∈ (gridPoints g).filter
        (fun ij => (cellOf g ij.1 ij.2).headD 0 == c) := by
      rw [List.mem_filter]
      exact ⟨mem_gridPoints.2 ⟨hi, hj⟩, by simpa using htop⟩
    exact boxOf_contains hmem
  · cases hpts : (gridPoints g).filter (fun ij => (cellOf g ij.1 ij.2).headD 0 == c) with
    | nil =>
      left
      constructor
      · unfold get_dominance_box
        rw [hpts, boxOf_nil]
      · intro i j hi hj htop
        have hmem : (i, j) ∈ (gridPoints g).filter
            (fun ij => (cellOf g ij.1 ij.2).headD 0 == c) := by
          rw [List.mem_filter]
          exact ⟨mem_gridPoints.2 ⟨hi, hj⟩, by simpa using htop⟩
        rw [hpts] at hmem
        cases hmem
    | cons x0 pts0 =>
      right
      set pts := (gridPoints g).filter (fun ij => (cellOf g ij.1 ij.2).headD 0 == c)
        with hptsdef
      have hx0 : x0 ∈ pts := by rw [hpts]; exact List.mem_cons_self x0 pts0
      have hbound : ∀ x ∈ pts, x.1 < gridN g ∧ x.2 < gridM g ∧
          (cellOf g x.1 x.2).headD 0 = c := by
        intro x hx
        rw [hptsdef, List.mem_filter] at hx
        exact ⟨(mem_gridPoints.1 hx.1).1, (mem_gridPoints.1 hx.1).2, by simpa using hx.2⟩
      have hcont := boxOf_contains hx0
      have hdb : get_dominance_box g c = boxOf pts := rfl
      refine ⟨?_, ?_, ?_, ?_⟩
      · rcases boxOf_r0_attain pts with h | ⟨x, hx, h⟩
        · exfalso
          have h1 := hcont.1
          have h2 : ((x0.1 : Int)) < (gridN g : Int) := by
            exact_mod_cast (hbound x0 hx0).1
          rw [h] at h1
          omega
        · obtain ⟨hb1, hb2, hb3⟩ := hbound x hx
          exact ⟨x.1, x.2, hb1, hb2, hb3, by rw [hdb, h]⟩
      · rcases boxOf_r1_attain pts with h | ⟨x, hx, h⟩
        · exfalso
          have h1 := hcont.2.1
          have h2 : (0 : Int) ≤ (x0.1 : Int) := Int.natCast_nonneg _
          rw [h] at h1
          unfold INF at h1
          omega
        · obtain ⟨hb1, hb2, hb3⟩ := hbound x hx
          exact ⟨x.1, x.2, hb1, hb2, hb3, by rw [hdb, h]⟩
      · rcases boxOf_c0_attain pts with h | ⟨x, hx, h⟩
        · exfalso
          have h1 := hcont.2.2.1
          have h2 : ((x0.2 : Int)) < (gridM g : Int) := by
            exact_mod_cast (hbound x0 hx0).2.1
          rw [h] at h1
          omega
        · obtain ⟨hb1, hb2, hb3⟩ := hbound x hx
          exact ⟨x.1, x.2, hb1, hb2, hb3, by rw [hdb, h]⟩
      · rcases boxOf_c1_attain pts with h | ⟨x, hx, h⟩
        · exfalso
          have h1 := hcont.2.2.2
          have h2 : (0 : Int) ≤ (x0.2 : Int) := Int.natCast_nonneg _
          rw [h] at h1
          unfold INF at h1
          omega
        · obtain ⟨hb1, hb2, hb3⟩ := hbound x hx
          exact ⟨x.1, x.2, hb1, hb2, hb3, by rw [hdb, h]⟩

/-- Witness for `get_dominance_box_spec` on a concrete complete 1×2 grid. -/
theorem get_dominance_box_spec_witness :
    (∀ i j, i < gridN [[[0, 1], [1, 0]]] → j < gridM [[[0, 1], [1, 0]]] →
      cellOf [[[0, 1], [1, 0]]] i j ≠ EmptyProf) ∧
    get_dominance_box? [[[0, 1], [1, 0]]] 0 = some (get_dominance_box [[[0, 1], [1, 0]]] 0) := by
  have h : ∀ i j, i < gridN [[[0, 1], [1, 0]]] → j < gridM [[[0, 1], [1, 0]]] →
      cellOf [[[0, 1], [1, 0]]] i j ≠ EmptyProf := by
    intro i j hi hj
    have hi1 : i = 0 := by
      have h1 : i < 1 := by simpa [gridN] using hi
      omega
    have hj1 : j < 2 := by simpa [gridM] using hj
    subst hi1
    interval_cases j <;> decide
  exact ⟨h, (get_dominance_box_spec [[[0, 1], [1, 0]]] 0 h (by decide) (by decide)).1⟩

/- Head-of-permutation preference facts. -/

theorem prefers_head {t c : Nat} (rest : List Nat) (hne : c ≠ t) :
    prefers (t :: rest) t c = true := by
  unfold prefers pos
  rw [List.indexOf_cons_self, List.indexOf_cons_ne rest (fun h => hne h.symm)]
  simp

theorem cell_head_cons {p : Pref} {C : Nat} (hperm : p.Perm (List.range C)) (hC : 0 < C) :
    ∃ t rest, p = t :: rest ∧ t < C := by
  cases p with
  | nil =>
    have h := hperm.length_eq
    simp at h
    omega
  | cons t rest =>
    refine ⟨t, rest, rfl, ?_⟩
    exact List.mem_range.1 (hperm.mem_iff.1 (List.mem_cons_self t rest))

theorem mem_of_lt_of_perm {p : Pref} {C c : Nat} (hperm : p.Perm (List.range C))
    (hc : c < C) : c ∈ p :=
  hperm.mem_iff.2 (List.mem_range.2 hc)

/- Containment in a preference bounding box. -/

theorem gpbb_containsPoint {g : Grid} {c0 c1 : Nat} {x : Nat × Nat}
    (hx : x.1 < gridN g) (hy : x.2 < gridM g)
    (hne : ¬(cellOf g x.1 x.2 == EmptyProf) = true)
    (hpref : prefers (cellOf g x.1 x.2) c0 c1 = true) :
    (get_preference_bounding_box g c0 c1).containsPoint x.1 x.2 := by
  apply boxOf_contains
  rw [List.mem_filter]
  refine ⟨mem_gridPoints.2 ⟨hx, hy⟩, ?_⟩
  simp only [Bool.and_eq_true, hpref, and_true]
  simp only [Bool.not_eq_true'] at hne ⊢
  exact Bool.not_eq_true _ ▸ hne

theorem mem_dom_filter_iff {g : Grid} {c : Nat} {x : Nat × Nat} :
    x ∈ (gridPoints g).filter (fun ij => (cellOf g ij.1 ij.2).headD 0 == c) ↔
      x.1 < gridN g ∧ x.2 < gridM g ∧ (cellOf g x.1 x.2).headD 0 = c := by
  rw [List.mem_filter, mem_gridPoints]
  simp [and_assoc]

/-- C2 (amended): on a complete grid profile (positive dimensions, every
cell a permutation of `{0..C-1}`, cell `(0,0)` the identity) that moreover
passes the single-crossing feasibility test `grid_valid` — as every grid
reaching the leaf check of the search does — `is_monodominated` returns
`true` if and only if every voter's top choice is candidate `0`.
(Without the `grid_valid` hypothesis only the forward implication of the
original claim holds: see `is_monodominated_not_top0` for a complete
non-single-crossing profile on which `is_monodominated` returns `true`
although a voter's top choice differs from `0`.) -/
theorem is_monodominated_iff (g : Grid) (C : Nat)
    (hN : 0 < gridN g) (hM : 0 < gridM g) (hC : 0 < C)
    (hcells : ∀ i j, i < gridN g → j < gridM g → (cellOf g i j).Perm (List.range C))
    (h00 : cellOf g 0 0 = List.range C)
    (hvalid : grid_valid g C = true) :
    is_monodominated g = true ↔
      ∀ i j, i < gridN g → j < gridM g → (cellOf g i j).head? = some 0 := by
  have hmono : is_monodominated g = true ↔
      ((get_dominance_box g 0).r0 = 0 ∧ (get_dominance_box g 0).c0 = 0 ∧
       (get_dominance_box g 0).r1 = (gridN g : Int) - 1 ∧
       (get_dominance_box g 0).c1 = (gridM g : Int) - 1) := by
    simp only [is_monodominated, Bool.and_eq_true, beq_iff_eq]
    tauto
  have hdb : get_dominance_box g 0 =
      boxOf ((gridPoints g).filter fun ij => (cellOf g ij.1 ij.2).headD 0 == 0) := rfl
  constructor
  · -- monodominated → every top is 0
    intro hm i j hi hj
    obtain ⟨hr0, hc0, hr1, hc1⟩ := hmono.1 hm
    by_contra htop
    obtain ⟨t, rest, hcell, htC⟩ := cell_head_cons (hcells i j hi hj) hC
    have ht0 : t ≠ 0 := by
      intro h
      rw [hcell, h] at htop
      exact htop rfl
    -- the B box: voters preferring t to 0 contains (i, j)
    have hBin : (get_preference_bounding_box g t 0).containsPoint i j := by
      refine gpbb_containsPoint (x := (i, j)) hi hj ?_ ?_
      · rw [hcell]; simp [EmptyProf]
      · rw [hcell]
        exact prefers_head rest (fun h => ht0 h.symm)
    -- the A box: voters preferring 0 to t contains each corner-attaining
    -- top-0 voter
    have hA : ∀ x : Nat × Nat,
        x ∈ (gridPoints g).filter (fun ij => (cellOf g ij.1 ij.2).headD 0 == 0) →
        (get_preference_bounding_box g 0 t).containsPoint x.1 x.2 := by
      intro x hx
      obtain ⟨hx1, hx2, hx3⟩ := mem_dom_filter_iff.1 hx
      obtain ⟨t', rest', hcell', _⟩ := cell_head_cons (hcells x.1 x.2 hx1 hx2) hC
      have ht' : t' = 0 := by
        rw [hcell'] at hx3
        simpa using hx3
      refine gpbb_containsPoint hx1 hx2 ?_ ?_
      · rw [hcell']; simp [EmptyProf]
      · rw [hcell', ht']
        exact prefers_head rest' ht0
    -- corner-attaining voters exist since the dominance box is exact
    have hattain := boxOf_r0_attain
      ((gridPoints g).filter fun ij => (cellOf g ij.1 ij.2).headD 0 == 0)
    rw [← hdb] at hattain
    have hAr0 : (get_preference_bounding_box g 0 t).r0 ≤ 0 := by
      rcases hattain with h | ⟨x, hx, h⟩
      · exfalso; rw [hr0] at h; unfold INF at h; omega
      · have hax := (hA x hx).1
        omega
    have hattain1 := boxOf_r1_attain
      ((gridPoints g).filter fun ij => (cellOf g ij.1 ij.2).headD 0 == 0)
    rw [← hdb] at hattain1
    have hAr1 : (gridN g : Int) - 1 ≤ (get_preference_bounding_box g 0 t).r1 := by
      rcases hattain1 with h | ⟨x, hx, h⟩
      · exfalso
        rw [hr1] at h
        unfold INF at h
        omega
      · have hax := (hA x hx).2.1
        omega
    have hattain2 := boxOf_c0_attain
      ((gridPoints g).filter fun ij => (cellOf g ij.1 ij.2).headD 0 == 0)
    rw [← hdb] at hattain2
    have hAc0 : (get_preference_bounding_box g 0 t).c0 ≤ 0 := by
      rcases hattain2 with h | ⟨x, hx, h⟩
      · exfalso; rw [hc0] at h; unfold INF at h; omega
      · have hax := (hA x hx).2.2.1
        omega
    have hattain3 := boxOf_c1_attain
      ((gridPoints g).filter fun ij => (cellOf g ij.1 ij.2).headD 0 == 0)
    rw [← hdb] at hattain3
    have hAc1 : (gridM g : Int) - 1 ≤ (get_preference_bounding_box g 0 t).c1 := by
      rcases hattain3 with h | ⟨x, hx, h⟩
      · exfalso
        rw [hc1] at h
        unfold INF at h
        omega
      · have hax := (hA x hx).2.2.2
        omega
    -- the two boxes intersect, contradicting grid_valid
    have hfalse := (grid_valid_eq_true_iff g C).1 hvalid 0 t (Nat.pos_of_ne_zero ht0) htC
    have htrue : do_intersect (get_preference_bounding_box g 0 t)
        (get_preference_bounding_box g t 0) = true := by
      rw [do_intersect_iff]
      obtain ⟨hb1, hb2, hb3, hb4⟩ := hBin
      have hiN : (i : Int) ≤ (gridN g : Int) - 1 := by
        have h1 : (i : Int) < (gridN g : Int) := by exact_mod_cast hi
        linarith
      have hjM : (j : Int) ≤ (gridM g : Int) - 1 := by
        have h1 : (j : Int) < (gridM g : Int) := by exact_mod_cast hj
        linarith
      have hi0 : (0 : Int) ≤ (i : Int) := Int.natCast_nonneg i
      have hj0 : (0 : Int) ≤ (j : Int) := Int.natCast_nonneg j
      exact ⟨le_trans hAr0 (le_trans hi0 hb2), le_trans hb1 (le_trans hiN hAr1),
             le_trans hAc0 (le_trans hj0 hb4), le_trans hb3 (le_trans hjM hAc1)⟩
    rw [hfalse] at htrue
    cases htrue
  · -- every top is 0 → monodominated
    intro htops
    apply hmono.2
    have hcorner : ∀ x : Nat × Nat, x.1 < gridN g → x.2 < gridM g →
        x ∈ (gridPoints g).filter (fun ij => (cellOf g ij.1 ij.2).headD 0 == 0) := by
      intro x hx1 hx2
      apply mem_dom_filter_iff.2
      refine ⟨hx1, hx2, ?_⟩
      have h := htops x.1 x.2 hx1 hx2
      cases hcell : cellOf g x.1 x.2 with
      | nil => rw [hcell] at h; cases h
      | cons t rest =>
        rw [hcell] at h
        simp only [List.head?_cons, Option.some.injEq] at h
        simp [h]
    have h00pt := boxOf_contains (hcorner (0, 0) hN hM)
    have hNMpt := boxOf_contains
      (hcorner (gridN g - 1, gridM g - 1) (by omega) (by omega))
    rw [← hdb] at h00pt hNMpt
    have hcN : ((gridN g - 1 : Nat) : Int) = (gridN g : Int) - 1 := by omega
    have hcM : ((gridM g - 1 : Nat) : Int) = (gridM g : Int) - 1 := by omega
    obtain ⟨ha1, ha2, ha3, ha4⟩ := h00pt
    obtain ⟨hb1, hb2, hb3, hb4⟩ := hNMpt
    rw [hcN] at hb1 hb2
    rw [hcM] at hb3 hb4
    simp only [Nat.cast_zero] at ha1 ha2 ha3 ha4
    have hattain := boxOf_r0_attain
      ((gridPoints g).filter fun ij => (cellOf g ij.1 ij.2).headD 0 == 0)
    have hattain1 := boxOf_r1_attain
      ((gridPoints g).filter fun ij => (cellOf g ij.1 ij.2).headD 0 == 0)
    have hattain2 := boxOf_c0_attain
      ((gridPoints g).filter fun ij => (cellOf g ij.1 ij.2).headD 0 == 0)
    have hattain3 := boxOf_c1_attain
      ((gridPoints g).filter fun ij => (cellOf g ij.1 ij.2).headD 0 == 0)
    rw [← hdb] at hattain hattain1 hattain2 hattain3
    refine ⟨?_, ?_, ?_, ?_⟩
    · rcases hattain with h | ⟨x, hx, h⟩
      · exfalso; rw [h] at ha1; unfold INF at ha1; omega
      · have hge : (0 : Int) ≤ (x.1 : Int) := Int.natCast_nonneg _
        omega
    · rcases hattain2 with h | ⟨x, hx, h⟩
      · exfalso; rw [h] at ha3; unfold INF at ha3; omega
      · have hge : (0 : Int) ≤ (x.2 : Int) := Int.natCast_nonneg _
        omega
    · rcases hattain1 with h | ⟨x, hx, h⟩
      · exfalso
        rw [h] at hb2
        unfold INF at hb2
        omega
      · have hxlt : x.1 < gridN g := (mem_dom_filter_iff.1 hx).1
        have : (x.1 : Int) ≤ (gridN g : Int) - 1 := by omega
        omega
    · rcases hattain3 with h | ⟨x, hx, h⟩
      · exfalso
        rw [h] at hb4
        unfold INF at hb4
        omega
      · have hxlt : x.2 < gridM g := (mem_dom_filter_iff.1 hx).2.1
        have : (x.2 : Int) ≤ (gridM g : Int) - 1 := by omega
        omega

/-- C2 counterexample: a complete 2×2 profile with C = 2 whose cell
`(0,0)` holds the identity ranking, on which `is_monodominated` returns
`true` although voter `(0,1)`'s top choice is candidate `1`, not `0`:
the two top-0 voters sit at the diagonal corners, so the dominance *box*
of candidate `0` spans the grid without every voter being top-0.
(The grid is not single-crossing: `grid_valid` rejects it, which is why
the search never reaches it — see `is_monodominated_iff`.) -/
theorem is_monodominated_not_top0 :
    is_monodominated [[[0, 1], [1, 0]], [[1, 0], [0, 1]]] = true ∧
    cellOf [[[0, 1], [1, 0]], [[1, 0], [0, 1]]] 0 0 = List.range 2 ∧
    (cellOf [[[0, 1], [1, 0]], [[1, 0], [0, 1]]] 0 1).head? ≠ some 0 := by decide

/-- Witness for `is_monodominated_iff` on the single-cell identity grid. -/
theorem is_monodominated_iff_witness :
    grid_valid [[[0, 1]]] 2 = true ∧ is_monodominated [[[0, 1]]] = true := by
  have hcells : ∀ i j, i < gridN [[[0, 1]]] → j < gridM [[[0, 1]]] →
      (cellOf [[[0, 1]]] i j).Perm (List.range 2) := by
    intro i j hi hj
    have h1 : i = 0 := by simp [gridN] at hi; omega
    have h2 : j = 0 := by simp [gridM] at hj; omega
    subst h1
    subst h2
    decide
  refine ⟨by decide, ?_⟩
  apply (is_monodominated_iff [[[0, 1]]] 2 (by decide) (by decide) (by decide)
    hcells (by decide) (by decide)).2
  intro i j hi hj
  have h1 : i = 0 := by simp [gridN] at hi; omega
  have h2 : j = 0 := by simp [gridM] at hj; omega
  subst h1
  subst h2
  decide

/- The inverse-rank array agrees with `pos` on permutations. -/

theorem foldl_set_untouched (p : Pref) :
    ∀ (is : List Nat) (a : List Nat) (c : Nat),
      (∀ i ∈ is, p.getD i 0 ≠ c) →
      (is.foldl (fun b i => b.set (p.getD i 0) i) a).getD c 0 = a.getD c 0 := by
  intro is
  induction is with
  | nil => intro a c _; rfl
  | cons x is ih =>
    intro a c h
    rw [List.foldl_cons, ih _ c (fun i hi => h i (List.mem_cons_of_mem x hi))]
    rw [List.getD_eq_getElem?_getD, List.getElem?_set_ne (h x (List.mem_cons_self x is)),
      ← List.getD_eq_getElem?_getD]

theorem foldl_set_hits (p : Pref) :
    ∀ (is : List Nat) (a : List Nat) (c i0 : Nat),
      is.Nodup → c < a.length →
      i0 ∈ is → p.getD i0 0 = c → (∀ x ∈ is, p.getD x 0 = c → x = i0) →
      (is.foldl (fun b i => b.set (p.getD i 0) i) a).getD c 0 = i0 := by
  intro is
  induction is with
  | nil => intro a c i0 _ _ h; cases h
  | cons x is ih =>
    intro a c i0 hnd hc hmem hhit huniq
    rw [List.foldl_cons]
    rcases eq_or_ne x i0 with rfl | hx
    · have hnohit : ∀ i ∈ is, p.getD i 0 ≠ c := by
        intro i hi hic
        have := huniq i (List.mem_cons_of_mem x hi) hic
        subst this
        exact (List.nodup_cons.1 hnd).1 hi
      rw [foldl_set_untouched p is _ c hnohit, hhit]
      rw [List.getD_eq_getElem?_getD, List.getElem?_set_self hc, Option.getD_some]
    · have hmem2 : i0 ∈ is := by
        rcases List.mem_cons.1 hmem with rfl | h2
        · exact absurd rfl hx
        · exact h2
      have hxc : p.getD x 0 ≠ c := fun hc2 => hx (huniq x (List.mem_cons_self x is) hc2)
      refine ih _ c i0 (List.nodup_cons.1 hnd).2 ?_ hmem2 hhit
        (fun y hy => huniq y (List.mem_cons_of_mem x hy))
      rw [List.length_set]
      exact hc

theorem pos_lt_of_perm {p : Pref} {C c : Nat} (hp : p.Perm (List.range C)) (hc : c < C) :
    pos p c < C := by
  have hlen : p.length = C := hp.length_eq.trans (List.length_range C)
  rw [← hlen]
  exact List.indexOf_lt_length.2 (mem_of_lt_of_perm hp hc)

theorem inv_of_getD {p : Pref} {C : Nat} (hp : p.Perm (List.range C)) {c : Nat}
    (hc : c < C) : (inv_of p C).getD c 0 = pos p c := by
  unfold inv_of
  have hlen : p.length = C := hp.length_eq.trans (List.length_range C)
  have hnd : p.Nodup := hp.nodup_iff.2 (List.nodup_range C)
  have hposlt : pos p c < C := pos_lt_of_perm hp hc
  have hposlen : pos p c < p.length := by omega
  refine foldl_set_hits p (List.range C) _ c (pos p c) (List.nodup_range C)
    (by rw [List.length_replicate]; exact hc) (List.mem_range.2 hposlt) ?_ ?_
  · rw [List.getD_eq_getElem p 0 hposlen]
    exact List.getElem_indexOf hposlen
  · intro x hx hxc
    have hxC : x < C := List.mem_range.1 hx
    have hxlen : x < p.length := by omega
    rw [List.getD_eq_getElem p 0 hxlen] at hxc
    have h1 : p.get ⟨x, hxlen⟩ = p.get ⟨pos p c, hposlen⟩ := by
      rw [List.get_eq_getElem, List.get_eq_getElem]
      rw [hxc]
      exact (List.getElem_indexOf hposlen).symm
    have h2 := List.nodup_iff_injective_get.1 hnd h1
    exact congrArg Fin.val h2

/- The iteration space of the pair loop. -/

theorem mem_candPairs {C : Nat} {cc : Nat × Nat} :
    cc ∈ candPairs C ↔ cc.1 < cc.2 ∧ cc.2 < C := by
  obtain ⟨a, b⟩ := cc
  simp only [candPairs, List.mem_flatMap, List.mem_map, List.mem_range, List.mem_range'_1,
    Prod.mk.injEq]
  constructor
  · rintro ⟨c0, hc0, c1, hc1, rfl, rfl⟩
    omega
  · rintro ⟨h1, h2⟩
    exact ⟨a, by omega, b, ⟨by omega, by omega⟩, rfl, rfl⟩

theorem cnt_crosses_eq_pos (p0 p1 : Pref) (C : Nat)
    (h0 : p0.Perm (List.range C)) (h1 : p1.Perm (List.range C)) :
    cnt_crosses p0 p1 C = ((candPairs C).map fun cc =>
      if ((pos p0 cc.1 < pos p0 cc.2) ↔ (pos p1 cc.1 < pos p1 cc.2)) then 0 else 1).sum := by
  unfold cnt_crosses
  congr 1
  apply List.map_congr_left
  intro cc hcc
  obtain ⟨hab, hbC⟩ := mem_candPairs.1 hcc
  rw [inv_of_getD h0 (by omega), inv_of_getD h0 hbC,
    inv_of_getD h1 (by omega), inv_of_getD h1 hbC]

/- Size of the pair loop's iteration space. -/

theorem sum_map_add_one (l : List Nat) (f : Nat → Nat) :
    (l.map fun x => f x + 1).sum = (l.map f).sum + l.length := by
  induction l with
  | nil => rfl
  | cons x l ih =>
    simp only [List.map_cons, List.sum_cons, ih, List.length_cons]
    omega

theorem sum_map_ones {α : Type} (l : List α) (f : α → Nat) (h : ∀ x ∈ l, f x = 1) :
    (l.map f).sum = l.length := by
  induction l with
  | nil => rfl
  | cons x l ih =>
    simp only [List.map_cons, List.sum_cons, List.length_cons,
      h x (List.mem_cons_self x l), ih (fun y hy => h y (List.mem_cons_of_mem x hy))]
    omega

theorem length_candPairs_eq_sum (C : Nat) :
    (candPairs C).length = ((List.range C).map fun c0 => C - c0 - 1).sum := by
  unfold candPairs
  rw [List.length_flatMap]
  congr 1
  apply List.map_congr_left
  intro c0 _
  simp only [Function.comp_apply, List.length_map, List.length_range']
  omega

theorem length_candPairs_mul_two : ∀ C : Nat, (candPairs C).length * 2 = C * (C - 1) := by
  intro C
  induction C with
  | zero => rfl
  | succ C ih =>
    rw [length_candPairs_eq_sum] at ih ⊢
    rw [List.range_succ, List.map_append, List.sum_append]
    have hmap : (List.range C).map (fun c0 => C + 1 - c0 - 1) =
        (List.range C).map fun c0 => (C - c0 - 1) + 1 := by
      apply List.map_congr_left
      intro c0 hc0
      have := List.mem_range.1 hc0
      omega
    rw [hmap, sum_map_add_one, List.length_range]
    simp only [List.map_cons, List.map_nil, List.sum_cons, List.sum_nil]
    have hgoal : ∀ s : Nat, s * 2 = C * (C - 1) →
        (s + C + (C + 1 - C - 1 + 0)) * 2 = (C + 1) * (C + 1 - 1) := by
      intro s hs
      have h1 : C + 1 - C - 1 + 0 = 0 := by omega
      rw [h1]
      have h2 : (C + 1) * (C + 1 - 1) = C * (C - 1) + 2 * C := by
        cases C with
        | zero => rfl
        | succ k =>
          simp only [Nat.add_sub_cancel, Nat.succ_sub_one]
          ring
      omega
    exact hgoal _ ih

theorem length_candPairs (C : Nat) : (candPairs C).length = C * (C - 1) / 2 := by
  have h := length_candPairs_mul_two C
  omega

/- Rank positions of a permutation determine it. -/

theorem pos_get {p : Pref} (hnd : p.Nodup) {n : Nat} (hn : n < p.length) :
    pos p (p.get ⟨n, hn⟩) = n := by
  have hmem : p.get ⟨n, hn⟩ ∈ p := p.get_mem _ hn
  have hlt : pos p (p.get ⟨n, hn⟩) < p.length := List.indexOf_lt_length.2 hmem
  have hgs : p.get ⟨pos p (p.get ⟨n, hn⟩), hlt⟩ = p.get ⟨n, hn⟩ := List.indexOf_get hlt
  have h2 := List.nodup_iff_injective_get.1 hnd hgs
  exact congrArg Fin.val h2

theorem pos_image_range {p : Pref} {C : Nat} (hp : p.Perm (List.range C)) :
    Finset.image (pos p) (Finset.range C) = Finset.range C := by
  apply Finset.eq_of_subset_of_card_le
  · intro x hx
    obtain ⟨b, hb, rfl⟩ := Finset.mem_image.1 hx
    exact Finset.mem_range.2 (pos_lt_of_perm hp (Finset.mem_range.1 hb))
  · rw [Finset.card_range, Finset.card_image_of_injOn]
    · rw [Finset.card_range]
    · intro a ha b hb hab
      exact (List.indexOf_inj (mem_of_lt_of_perm hp (Finset.mem_range.1 ha))
        (mem_of_lt_of_perm hp (Finset.mem_range.1 hb))).1 hab

theorem filter_range_lt (C k : Nat) (hk : k ≤ C) :
    (Finset.range C).filter (fun v => v < k) = Finset.range k := by
  ext x
  simp only [Finset.mem_filter, Finset.mem_range]
  omega

theorem pos_eq_card {p : Pref} {C : Nat} (hp : p.Perm (List.range C)) {a : Nat}
    (ha : a < C) :
    pos p a = ((Finset.range C).filter fun b => pos p b < pos p a).card := by
  have hinj : Set.InjOn (pos p) (Finset.range C) := by
    intro x hx y hy hxy
    exact (List.indexOf_inj (mem_of_lt_of_perm hp (by simpa using hx))
      (mem_of_lt_of_perm hp (by simpa using hy))).1 hxy
  have himg : Finset.image (pos p) ((Finset.range C).filter fun b => pos p b < pos p a)
      = (Finset.range C).filter fun v => v < pos p a := by
    ext v
    constructor
    · intro hv
      obtain ⟨b, hb, rfl⟩ := Finset.mem_image.1 hv
      rw [Finset.mem_filter] at hb ⊢
      exact ⟨Finset.mem_range.2 (pos_lt_of_perm hp (Finset.mem_range.1 hb.1)), hb.2⟩
    · intro hv
      rw [Finset.mem_filter] at hv
      have hv2 : v ∈ Finset.image (pos p) (Finset.range C) := by
        rw [pos_image_range hp]
        exact hv.1
      obtain ⟨b, hb, rfl⟩ := Finset.mem_image.1 hv2
      exact Finset.mem_image.2 ⟨b, Finset.mem_filter.2 ⟨hb, hv.2⟩, rfl⟩
  have hcard : ((Finset.range C).filter fun b => pos p b < pos p a).card
      = ((Finset.range C).filter fun v => v < pos p a).card := by
    rw [← himg]
    exact (Finset.card_image_of_injOn
      (hinj.mono (Finset.coe_subset.2 (Finset.filter_subset _ _)))).symm
  rw [hcard, filter_range_lt C (pos p a) (le_of_lt (pos_lt_of_perm hp ha)),
    Finset.card_range]

theorem perm_eq_of_pos_eq {p0 p1 : Pref} {C : Nat}
    (h0 : p0.Perm (List.range C)) (h1 : p1.Perm (List.range C))
    (h : ∀ a, a < C → pos p0 a = pos p1 a) : p0 = p1 := by
  have hlen0 : p0.length = C := h0.length_eq.trans (List.length_range C)
  have hlen1 : p1.length = C := h1.length_eq.trans (List.length_range C)
  have hnd0 : p0.Nodup := h0.nodup_iff.2 (List.nodup_range C)
  apply List.ext_get (by omega)
  intro n hn0 hn1
  set a := p0.get ⟨n, hn0⟩ with hadef
  have haC : a < C := by
    have hmem := h0.mem_iff.1 (p0.get_mem _ hn0)
    exact List.mem_range.1 hmem
  have hp0a : pos p0 a = n := pos_get hnd0 hn0
  have hp1a : pos p1 a = n := by rw [← h a haC, hp0a]
  have hlt : List.indexOf a p1 < p1.length := by
    have h2 : pos p1 a < p1.length := by omega
    exact h2
  have hget := List.indexOf_get (a := a) hlt
  have hfin : (⟨List.indexOf a p1, hlt⟩ : Fin p1.length) = ⟨n, hn1⟩ := by
    apply Fin.ext
    exact hp1a
  rw [hfin] at hget
  exact hget.symm

theorem pos_reverse {p : Pref} {C c : Nat} (hp : p.Perm (List.range C)) (hc : c < C) :
    pos p.reverse c = C - 1 - pos p c := by
  have hlen : p.length = C := hp.length_eq.trans (List.length_range C)
  have hnd : p.Nodup := hp.nodup_iff.2 (List.nodup_range C)
  have hndr : p.reverse.Nodup := List.nodup_reverse.2 hnd
  have hposlt : pos p c < C := pos_lt_of_perm hp hc
  have hrfl : pos p c = List.indexOf c p := rfl
  have hidx : C - 1 - pos p c < p.reverse.length := by
    rw [List.length_reverse]
    omega
  have hposlen : List.indexOf c p < p.length := by omega
  have hval : p.reverse.get ⟨C - 1 - pos p c, hidx⟩ = c := by
    rw [List.get_eq_getElem]
    rw [List.getElem_reverse]
    have hip : p.length - 1 - ((⟨C - 1 - pos p c, hidx⟩ : Fin p.reverse.length) : Nat)
        = List.indexOf c p := by
      simp only [Fin.val_mk]
      omega
    have h6 := List.getElem?_eq_getElem (l := p)
      (n := p.length - 1 - ((⟨C - 1 - pos p c, hidx⟩ : Fin p.reverse.length) : Nat))
      (by simp only [Fin.val_mk]; omega)
    have h7 := List.getElem?_eq_getElem (l := p) (n := List.indexOf c p) hposlen
    have h5 : p[p.length - 1 - ((⟨C - 1 - pos p c, hidx⟩ : Fin p.reverse.length) : Nat)]?
        = p[List.indexOf c p]? := by rw [hip]
    rw [h6, h7] at h5
    rw [Option.some.inj h5]
    exact List.getElem_indexOf hposlen
  have h4 := pos_get hndr hidx
  rw [hval] at h4
  exact h4

/-- C6 (crossing-count symmetry and bounds): for permutations `p0`, `p1`
of `{0..C-1}`: `cnt_crosses` is symmetric in its two lists; it is zero iff
the lists are equal; it is at most `C*(C-1)/2`; and the maximum is
attained at the reversal of `p0`. -/
theorem cnt_crosses_spec (p0 p1 : Pref) (C : Nat)
    (h0 : p0.Perm (List.range C)) (h1 : p1.Perm (List.range C)) :
    cnt_crosses p0 p1 C = cnt_crosses p1 p0 C ∧
    (cnt_crosses p0 p1 C = 0 ↔ p0 = p1) ∧
    cnt_crosses p0 p1 C ≤ C * (C - 1) / 2 ∧
    cnt_crosses p0 p0.reverse C = C * (C - 1) / 2 := by
  refine ⟨?_, ?_, ?_, ?_⟩
  · unfold cnt_crosses
    congr 1
    apply List.map_congr_left
    intro cc _
    exact if_congr Iff.comm rfl rfl
  · constructor
    · intro hz
      rw [cnt_crosses_eq_pos p0 p1 C h0 h1] at hz
      have hall := List.sum_eq_zero_iff.1 hz
      have hagree : ∀ a b, a < b → b < C →
          ((pos p0 a < pos p0 b) ↔ (pos p1 a < pos p1 b)) := by
        intro a b hab hbC
        have hmem : ((a, b) : Nat × Nat) ∈ candPairs C := mem_candPairs.2 ⟨hab, hbC⟩
        have hx := hall _ (List.mem_map.2 ⟨(a, b), hmem, rfl⟩)
        by_contra hne
        rw [if_neg hne] at hx
        cases hx
      have hagree2 : ∀ a b, a ≠ b → a < C → b < C →
          ((pos p0 a < pos p0 b) ↔ (pos p1 a < pos p1 b)) := by
        intro a b hne haC hbC
        rcases Nat.lt_or_ge a b with h | h
        · exact hagree a b h hbC
        · have hba : b < a := by omega
          have hsw := hagree b a hba haC
          have hinj0 : pos p0 a ≠ pos p0 b := fun hh =>
            hne ((List.indexOf_inj (mem_of_lt_of_perm h0 haC)
              (mem_of_lt_of_perm h0 hbC)).1 hh)
          have hinj1 : pos p1 a ≠ pos p1 b := fun hh =>
            hne ((List.indexOf_inj (mem_of_lt_of_perm h1 haC)
              (mem_of_lt_of_perm h1 hbC)).1 hh)
          rw [show (pos p0 a < pos p0 b) ↔ ¬(pos p0 b < pos p0 a) from by omega,
            show (pos p1 a < pos p1 b) ↔ ¬(pos p1 b < pos p1 a) from by omega]
          exact not_congr hsw
      have hposeq : ∀ a, a < C → pos p0 a = pos p1 a := by
        intro a haC
        rw [pos_eq_card h0 haC, pos_eq_card h1 haC]
        congr 1
        apply Finset.filter_congr
        intro b hb
        rcases eq_or_ne b a with rfl | hba
        · simp
        · exact hagree2 b a hba (Finset.mem_range.1 hb) haC
      exact perm_eq_of_pos_eq h0 h1 hposeq
    · rintro rfl
      unfold cnt_crosses
      apply List.sum_eq_zero_iff.2
      intro x hx
      obtain ⟨cc, _, rfl⟩ := List.mem_map.1 hx
      exact if_pos Iff.rfl
  · unfold cnt_crosses
    have hle := List.sum_le_card_nsmul
      ((candPairs C).map fun cc =>
        if (((inv_of p0 C).getD cc.1 0 < (inv_of p0 C).getD cc.2 0) ↔
            ((inv_of p1 C).getD cc.1 0 < (inv_of p1 C).getD cc.2 0)) then 0 else 1) 1 ?_
    · rw [List.length_map, length_candPairs, smul_eq_mul, mul_one] at hle
      exact hle
    · intro x hx
      obtain ⟨cc, _, rfl⟩ := List.mem_map.1 hx
      split_ifs <;> omega
  · have hrev : p0.reverse.Perm (List.range C) := (List.reverse_perm p0).trans h0
    rw [cnt_crosses_eq_pos p0 p0.reverse C h0 hrev]
    rw [sum_map_ones (candPairs C) _ ?_, length_candPairs]
    intro cc hcc
    obtain ⟨hab, hbC⟩ := mem_candPairs.1 hcc
    rw [pos_reverse h0 (by omega), pos_reverse h0 hbC]
    have h1lt : pos p0 cc.1 < C := pos_lt_of_perm h0 (by omega)
    have h2lt : pos p0 cc.2 < C := pos_lt_of_perm h0 hbC
    have hne : pos p0 cc.1 ≠ pos p0 cc.2 := fun hh =>
      (by omega : cc.1 ≠ cc.2)
        ((List.indexOf_inj (mem_of_lt_of_perm h0 (by omega))
          (mem_of_lt_of_perm h0 hbC)).1 hh)
    split_ifs with hiff
    · exfalso
      omega
    · rfl

/-- Witness for `cnt_crosses_spec` on concrete permutations of `{0, 1}`. -/
theorem cnt_crosses_spec_witness :
    ([0, 1] : Pref).Perm (List.range 2) ∧ ([1, 0] : Pref).Perm (List.range 2) ∧
    cnt_crosses [0, 1] [1, 0] 2 = cnt_crosses [1, 0] [0, 1] 2 ∧
    cnt_crosses [0, 1] ([0, 1] : Pref).reverse 2 = 2 * (2 - 1) / 2 := by
  refine ⟨by decide, by decide, ?_, ?_⟩
  · exact (cnt_crosses_spec [0, 1] [1, 0] 2 (by decide) (by decide)).1
  · exact (cnt_crosses_spec [0, 1] [1, 0] 2 (by decide) (by decide)).2.2.2

/- The lexicographic order used by the `next_permutation` enumeration. -/

theorem lexLt_irrefl (l : List Nat) : lexLt l l = false := by
  induction l with
  | nil => rfl
  | cons a as ih =>
    unfold lexLt
    rw [if_neg (lt_irrefl a), if_neg (lt_irrefl a)]
    exact ih

theorem lexLt_trans : ∀ {a b c : List Nat},
    lexLt a b = true → lexLt b c = true → lexLt a c = true := by
  intro a
  induction a with
  | nil =>
    intro b c hab hbc
    cases b with
    | nil => cases hab
    | cons y ys =>
      cases c with
      | nil => cases hbc
      | cons z zs => rfl
  | cons x xs ih =>
    intro b c hab hbc
    cases b with
    | nil => cases hab
    | cons y ys =>
      cases c with
      | nil => cases hbc
      | cons z zs =>
        unfold lexLt at hab hbc ⊢
        split_ifs at hab hbc ⊢ with h1 h2 h3 h4 h5 h6 <;>
          first
            | rfl
            | (exact absurd hab (by decide))
            | (exact absurd hbc (by decide))
            | (exact ih hab hbc)
            | (exfalso; omega)

theorem lexLt_total : ∀ {a b : List Nat}, a ≠ b →
    lexLt a b = true ∨ lexLt b a = true := by
  intro a
  induction a with
  | nil =>
    intro b hne
    cases b with
    | nil => exact absurd rfl hne
    | cons y ys => exact Or.inl rfl
  | cons x xs ih =>
    intro b hne
    cases b with
    | nil => exact Or.inr rfl
    | cons y ys =>
      rcases Nat.lt_trichotomy x y with h | h | h
      · left
        unfold lexLt
        rw [if_pos h]
      · subst h
        have hne2 : xs ≠ ys := fun hh => hne (by rw [hh])
        rcases ih hne2 with h2 | h2
        · left
          unfold lexLt
          rw [if_neg (lt_irrefl x), if_neg (lt_irrefl x)]
          exact h2
        · right
          unfold lexLt
          rw [if_neg (lt_irrefl x), if_neg (lt_irrefl x)]
          exact h2
      · right
        unfold lexLt
        rw [if_pos h]

/- The least element found by `minBy?`. -/

theorem minBy?_eq_none_iff {l : List (List Nat)} : minBy? l = none ↔ l = [] := by
  cases l with
  | nil => simp [minBy?]
  | cons q rest =>
    constructor
    · intro h
      exfalso
      simp only [minBy?] at h
      cases hm : minBy? rest with
      | none => rw [hm] at h; cases h
      | some m =>
        rw [hm] at h
        dsimp at h
        split_ifs at h <;> cases h
    · intro h
      cases h

theorem minBy?_spec : ∀ {l : List (List Nat)} {m : List Nat}, minBy? l = some m →
    m ∈ l ∧ ∀ x ∈ l, lexLt x m = false := by
  intro l
  induction l with
  | nil => intro m h; cases h
  | cons q rest ih =>
    intro m h
    simp only [minBy?] at h
    cases hm : minBy? rest with
    | none =>
      rw [hm] at h
      dsimp at h
      have hq := Option.some.inj h
      subst hq
      have hrest : rest = [] := minBy?_eq_none_iff.1 hm
      subst hrest
      refine ⟨List.mem_cons_self _ _, ?_⟩
      intro x hx
      rcases List.mem_cons.1 hx with rfl | hx2
      · exact lexLt_irrefl x
      · cases hx2
    | some m' =>
      rw [hm] at h
      dsimp at h
      obtain ⟨hmem', hmin'⟩ := ih hm
      split_ifs at h with hlt
      · have hq := Option.some.inj h
        subst hq
        refine ⟨List.mem_cons_self _ _, ?_⟩
        intro x hx
        rcases List.mem_cons.1 hx with rfl | hx2
        · exact lexLt_irrefl x
        · by_contra hc
          rw [Bool.not_eq_false] at hc
          have h2 := lexLt_trans hc hlt
          rw [hmin' x hx2] at h2
          cases h2
      · have hq := Option.some.inj h
        subst hq
        refine ⟨List.mem_cons_of_mem _ hmem', ?_⟩
        intro x hx
        rcases List.mem_cons.1 hx with rfl | hx2
        · simp only [Bool.not_eq_true] at hlt
          exact hlt
        · exact hmin' x hx2

/- The contract facts of `nextPermutation`. -/

theorem nextPermutation_none_iff {p : List Nat} :
    nextPermutation p = none ↔ ∀ q, q.Perm p → lexLt p q = false := by
  unfold nextPermutation
  rw [minBy?_eq_none_iff, List.filter_eq_nil_iff]
  constructor
  · intro h q hq
    have h2 := h q (List.mem_permutations.2 hq)
    simpa using h2
  · intro h q hq
    simp only [Bool.not_eq_true]
    exact h q (List.mem_permutations.1 hq)

theorem nextPermutation_some {p m : List Nat} (h : nextPermutation p = some m) :
    m.Perm p ∧ lexLt p m = true ∧
      ∀ x, x.Perm p → lexLt p x = true → lexLt x m = false := by
  unfold nextPermutation at h
  obtain ⟨hmem, hmin⟩ := minBy?_spec h
  rw [List.mem_filter, List.mem_permutations] at hmem
  refine ⟨hmem.1, hmem.2, ?_⟩
  intro x hx hlt
  exact hmin x (List.mem_filter.2 ⟨List.mem_permutations.2 hx, hlt⟩)

/- The `next_permutation` chain. -/

theorem permSeqAux_cons (fuel : Nat) (p : List Nat) :
    permSeqAux (fuel + 1) p =
      p :: (match nextPermutation p with
            | none => []
            | some q => permSeqAux fuel q) := rfl

theorem permSeqAux_perm : ∀ (fuel : Nat) (p x : List Nat),
    x ∈ permSeqAux fuel p → x.Perm p := by
  intro fuel
  induction fuel with
  | zero => intro p x h; cases h
  | succ fuel ih =>
    intro p x h
    rw [permSeqAux_cons] at h
    rcases List.mem_cons.1 h with rfl | h2
    · exact List.Perm.refl x
    · cases hq : nextPermutation p with
      | none => rw [hq] at h2; cases h2
      | some q =>
        rw [hq] at h2
        exact (ih q x h2).trans (nextPermutation_some hq).1

theorem permSeqAux_gt : ∀ (fuel : Nat) (p x : List Nat),
    x ∈ permSeqAux fuel p → x = p ∨ lexLt p x = true := by
  intro fuel
  induction fuel with
  | zero => intro p x h; cases h
  | succ fuel ih =>
    intro p x h
    rw [permSeqAux_cons] at h
    rcases List.mem_cons.1 h with rfl | h2
    · exact Or.inl rfl
    · cases hq : nextPermutation p with
      | none => rw [hq] at h2; cases h2
      | some q =>
        rw [hq] at h2
        have hpq := (nextPermutation_some hq).2.1
        rcases ih q x h2 with rfl | h3
        · exact Or.inr hpq
        · exact Or.inr (lexLt_trans hpq h3)

theorem permSeqAux_pairwise : ∀ (fuel : Nat) (p : List Nat),
    (permSeqAux fuel p).Pairwise (fun a b => lexLt a b = true) := by
  intro fuel
  induction fuel with
  | zero => intro p; exact List.Pairwise.nil
  | succ fuel ih =>
    intro p
    rw [permSeqAux_cons]
    rw [List.pairwise_cons]
    constructor
    · intro x hx
      cases hq : nextPermutation p with
      | none => rw [hq] at hx; cases hx
      | some q =>
        rw [hq] at hx
        have hpq := (nextPermutation_some hq).2.1
        rcases permSeqAux_gt fuel q x hx with rfl | h3
        · exact hpq
        · exact lexLt_trans hpq h3
    · cases hq : nextPermutation p with
      | none => exact List.Pairwise.nil
      | some q => exact ih q

theorem permSeqAux_nodup (fuel : Nat) (p : List Nat) : (permSeqAux fuel p).Nodup := by
  apply (permSeqAux_pairwise fuel p).imp
  intro a b hab heq
  subst heq
  rw [lexLt_irrefl] at hab
  cases hab

/- Termination measure: the number of rearrangements at or above `p`
strictly decreases along the chain. -/

theorem permsAbove_lt {p m : List Nat} (hnd : p.Nodup) (hm : nextPermutation p = some m) :
    permsAbove m < permsAbove p := by
  obtain ⟨hperm, hlt, hmin⟩ := nextPermutation_some hm
  unfold permsAbove
  have hndm : m.Nodup := hperm.nodup_iff.2 hnd
  have hndpl : p.permutations.Nodup := List.nodup_permutations p hnd
  have hndml : m.permutations.Nodup := List.nodup_permutations m hndm
  rw [← List.toFinset_card_of_nodup (List.Nodup.filter _ hndml),
    ← List.toFinset_card_of_nodup (List.Nodup.filter _ hndpl),
    List.toFinset_filter, List.toFinset_filter]
  have hsets : m.permutations.toFinset = p.permutations.toFinset := by
    ext q
    simp only [List.mem_toFinset, List.mem_permutations]
    exact ⟨fun h => h.trans hperm, fun h => h.trans hperm.symm⟩
  rw [hsets]
  apply Finset.card_lt_card
  rw [Finset.ssubset_iff_of_subset]
  · refine ⟨p, ?_, ?_⟩
    · rw [Finset.mem_filter]
      refine ⟨List.mem_toFinset.2 (List.mem_permutations.2 (List.Perm.refl p)), ?_⟩
      rw [lexLt_irrefl]
      rfl
    · rw [Finset.mem_filter]
      rintro ⟨_, hp2⟩
      rw [hlt] at hp2
      cases hp2
  · intro q hq
    rw [Finset.mem_filter] at hq ⊢
    refine ⟨hq.1, ?_⟩
    have hq2 := hq.2
    simp only [Bool.not_eq_true'] at hq2 ⊢
    by_contra hc
    rw [Bool.not_eq_false] at hc
    have h2 := lexLt_trans hc hlt
    rw [hq2] at h2
    cases h2

theorem permSeqAux_complete : ∀ (fuel : Nat) (p : List Nat), p.Nodup →
    permsAbove p ≤ fuel → ∀ q, q.Perm p → lexLt q p = false → q ∈ permSeqAux fuel p := by
  intro fuel
  induction fuel with
  | zero =>
    intro p hnd hab q hq hlt
    exfalso
    have hp : p ∈ p.permutations.filter fun x => !(lexLt x p) := by
      rw [List.mem_filter]
      refine ⟨List.mem_permutations.2 (List.Perm.refl p), ?_⟩
      rw [lexLt_irrefl]
      rfl
    have hpos : 0 < permsAbove p := List.length_pos.2 (List.ne_nil_of_mem hp)
    omega
  | succ fuel ih =>
    intro p hnd hab q hq hlt
    rw [permSeqAux_cons]
    rcases eq_or_ne q p with rfl | hne
    · exact List.mem_cons_self _ _
    · have hpq : lexLt p q = true := by
        rcases lexLt_total hne with h | h
        · rw [h] at hlt; cases hlt
        · exact h
      cases hm : nextPermutation p with
      | none =>
        exfalso
        have h2 := nextPermutation_none_iff.1 hm q hq
        rw [h2] at hpq
        cases hpq
      | some m =>
        apply List.mem_cons_of_mem
        obtain ⟨hperm, hplt, hmin⟩ := nextPermutation_some hm
        have hndm : m.Nodup := hperm.nodup_iff.2 hnd
        have habm : permsAbove m ≤ fuel := by
          have h3 := permsAbove_lt hnd hm
          omega
        have hqm : q.Perm m := hq.trans hperm.symm
        have hqlt : lexLt q m = false := hmin q hq hpq
        exact ih m hndm habm q hqm hqlt

/- The full enumeration `permSeq`. -/

theorem permsAbove_le_factorial (C : Nat) :
    permsAbove (List.range C) ≤ Nat.factorial C := by
  unfold permsAbove
  calc ((List.range C).permutations.filter fun q => !(lexLt q (List.range C))).length
      ≤ (List.range C).permutations.length := List.length_filter_le _ _
    _ = (List.range C).length.factorial := List.length_permutations _
    _ = Nat.factorial C := by rw [List.length_range]

theorem sorted_min_perm : ∀ {p : List Nat}, p.Pairwise (· < ·) →
    ∀ {q : List Nat}, q.Perm p → lexLt q p = false := by
  intro p
  induction p with
  | nil =>
    intro _ q hq
    rw [hq.eq_nil]
    rfl
  | cons a p ih =>
    intro hpw q hq
    cases q with
    | nil =>
      have h2 := hq.length_eq
      simp at h2
    | cons b q =>
      have hb : b ∈ a :: p := hq.subset (List.mem_cons_self b q)
      have hab : a ≤ b := by
        rcases List.mem_cons.1 hb with rfl | hbp
        · exact le_refl b
        · exact le_of_lt ((List.pairwise_cons.1 hpw).1 b hbp)
      show lexLt (b :: q) (a :: p) = false
      unfold lexLt
      rw [if_neg (by omega : ¬b < a)]
      by_cases hba : a < b
      · rw [if_pos hba]
      · rw [if_neg hba]
        have hba2 : b = a := by omega
        subst hba2
        exact ih (List.pairwise_cons.1 hpw).2 hq.cons_inv

theorem mem_permSeq {C : Nat} {p : List Nat} :
    p ∈ permSeq C ↔ p.Perm (List.range C) := by
  constructor
  · intro h
    exact permSeqAux_perm _ _ _ h
  · intro h
    exact permSeqAux_complete (Nat.factorial C) (List.range C) (List.nodup_range C)
      (permsAbove_le_factorial C) p h (sorted_min_perm (List.pairwise_lt_range C) h)

theorem permSeq_nodup (C : Nat) : (permSeq C).Nodup :=
  permSeqAux_nodup (Nat.factorial C) (List.range C)

theorem permSeq_length (C : Nat) : (permSeq C).length = Nat.factorial C := by
  have hperm : (permSeq C).Perm (List.range C).permutations := by
    rw [List.perm_ext_iff_of_nodup (permSeq_nodup C)
      (List.nodup_permutations _ (List.nodup_range C))]
    intro q
    rw [mem_permSeq, List.mem_permutations]
  rw [hperm.length_eq, List.length_permutations, List.length_range]

/-- C4 (permutation completeness with symmetry breaking): at every free
cell other than `(0,0)` the driver's assignment list is exactly the `C!`
distinct permutations of `{0..C-1}`, each exactly once; at cell `(0,0)`
it is the single identity permutation (the loop `break`s after the first
iteration); and after running through its assignments the loop leaves the
cell unassigned (`EmptyProf`) on every non-aborting return. -/
theorem cellAssignments_spec (C r c : Nat) :
    cellAssignments C 0 0 = [List.range C] ∧
    (¬(r = 0 ∧ c = 0) →
      (cellAssignments C r c).length = Nat.factorial C ∧
      (cellAssignments C r c).Nodup ∧
      (∀ p, p ∈ cellAssignments C r c ↔ p.Perm (List.range C))) ∧
    (∀ (f : Grid → Option (Grid × Bool)) (ps : List Pref) (g g' : Grid),
      backtrLoop f g r c ps = some (g', false) → cellOf g' r c = EmptyProf) := by
  refine ⟨?_, ?_, ?_⟩
  · unfold cellAssignments
    rw [if_pos ⟨rfl, rfl⟩]
  · intro h
    unfold cellAssignments
    rw [if_neg h]
    exact ⟨permSeq_length C, permSeq_nodup C, fun p => mem_permSeq⟩
  · intro f ps
    induction ps with
    | nil =>
      intro g g' h
      simp only [backtrLoop] at h
      have h2 := Option.some.inj h
      have h3 : setCell g r c EmptyProf = g' := congrArg Prod.fst h2
      rw [← h3]
      exact cellOf_setCell_empty g r c
    | cons p ps ih =>
      intro g g' h
      simp only [backtrLoop] at h
      cases hf : f (setCell g r c p) with
      | none => rw [hf] at h; cases h
      | some gb =>
        obtain ⟨g2, ab⟩ := gb
        rw [hf] at h
        cases ab with
        | true =>
          dsimp at h
          have h2 := Option.some.inj h
          have h3 := congrArg Prod.snd h2
          cases h3
        | false =>
          dsimp at h
          exact ih g2 g' h

/-- Witness for `cellAssignments_spec`: cell `(0,1)` with `C = 2`. -/
theorem cellAssignments_spec_witness :
    ¬((0 : Nat) = 0 ∧ (1 : Nat) = 0) ∧
    (cellAssignments 2 0 1).length = Nat.factorial 2 :=
  ⟨by decide, ((cellAssignments_spec 2 0 1).2.1 (by decide)).1⟩

/- Frame reasoning for the backtracking driver. -/

theorem suffixEmpty_mono {g : Grid} {r c c' : Nat} (h : SuffixEmpty g r c)
    (hcc : c ≤ c') : SuffixEmpty g r c' := by
  intro i j hi hj hij
  apply h i j hi hj
  rcases hij with h1 | ⟨rfl, h2⟩
  · exact Or.inl h1
  · exact Or.inr ⟨rfl, by omega⟩

theorem suffixEmpty_setCell {g : Grid} {r c : Nat} (p : Pref)
    (h : SuffixEmpty g r (c + 1)) : SuffixEmpty (setCell g r c p) r (c + 1) := by
  intro i j hi hj hij
  rw [gridN_setCell] at hi
  rw [gridM_setCell] at hj
  rw [cellOf_setCell_ne g p ?_]
  · exact h i j hi hj hij
  · rintro ⟨rfl, rfl⟩
    rcases hij with h1 | ⟨_, h2⟩
    · omega
    · omega

theorem suffixEmpty_nextRow {g : Grid} {r : Nat} (h : SuffixEmpty g r (gridM g)) :
    SuffixEmpty g (r + 1) 0 := by
  intro i j hi hj hij
  apply h i j hi hj
  left
  rcases hij with h1 | ⟨rfl, _⟩
  · omega
  · omega

theorem backtrLoop_frame (f : Grid → Option (Grid × Bool)) (r c : Nat)
    (hf : ∀ gg h2, UniformRows gg → SuffixEmpty gg r (c + 1) →
      f gg = some (h2, false) → h2 = gg) :
    ∀ (ps : List Pref) (g g' : Grid), UniformRows g → SuffixEmpty g r (c + 1) →
      backtrLoop f g r c ps = some (g', false) → g' = setCell g r c EmptyProf := by
  intro ps
  induction ps with
  | nil =>
    intro g g' _ _ h
    simp only [backtrLoop] at h
    exact (congrArg Prod.fst (Option.some.inj h)).symm
  | cons p ps ih =>
    intro g g' hu hs h
    simp only [backtrLoop] at h
    cases hfv : f (setCell g r c p) with
    | none => rw [hfv] at h; cases h
    | some gb =>
      obtain ⟨g2, ab⟩ := gb
      rw [hfv] at h
      cases ab with
      | true =>
        dsimp at h
        cases congrArg Prod.snd (Option.some.inj h)
      | false =>
        dsimp at h
        have hg2 : g2 = setCell g r c p :=
          hf _ _ (uniformRows_setCell hu r c p) (suffixEmpty_setCell p hs) hfv
        subst hg2
        have hrec := ih (setCell g r c p) g' (uniformRows_setCell hu r c p)
          (suffixEmpty_setCell p hs) h
        rw [hrec, setCell_setCell]

theorem backtr_frame_core : ∀ (fuel : Nat) (g : Grid) (C r c : Nat) (g' : Grid),
    UniformRows g → SuffixEmpty g r c →
    backtr fuel g C r c = some (g', false) → g' = g := by
  intro fuel
  induction fuel with
  | zero => intro g C r c g' _ _ h; cases h
  | succ fuel ih =>
    intro g C r c g' hu hs h
    simp only [backtr] at h
    by_cases h1 : grid_valid g C = false
    · rw [if_pos h1] at h
      exact (congrArg Prod.fst (Option.some.inj h)).symm
    · rw [if_neg h1] at h
      by_cases h2 : r = gridN g
      · rw [if_pos h2] at h
        exact (congrArg Prod.fst (Option.some.inj h)).symm
      · rw [if_neg h2] at h
        by_cases h3 : c = gridM g
        · rw [if_pos h3] at h
          exact ih g C (r + 1) 0 g' hu (suffixEmpty_nextRow (h3 ▸ hs)) h
        · rw [if_neg h3] at h
          have hloop := backtrLoop_frame (fun g2 => backtr fuel g2 C r (c + 1)) r c
            (fun gg hh hu2 hs2 hfv => ih gg C r (c + 1) hh hu2 hs2 hfv)
            (cellAssignments C r c) g g' hu (suffixEmpty_mono hs (Nat.le_succ c)) h
          rw [hloop]
          by_cases hr : r < gridN g
          · by_cases hc : c < gridM g
            · exact setCell_empty_self g r c (hs r c hr hc (Or.inr ⟨rfl, le_refl c⟩))
            · apply setCell_empty_self
              unfold cellOf
              apply getD_of_length_le _ EmptyProf
              have hrow : (g.getD r []).length = gridM g := by
                apply hu
                rw [List.getD_eq_getElem g [] hr]
                exact List.getElem_mem hr
              omega
          · apply setCell_empty_self
            unfold cellOf
            rw [getD_of_length_le (Nat.le_of_not_lt hr) ([] : List Pref)]
            rfl

/-- C9 (amended, backtracking frame property): whenever a call
`backtr(g, C, r, c)` on a grid with uniform row lengths whose cells at
row-major position `(r, c)` or later are all unassigned — as is the case
for every call the search actually makes, by the reachability invariant —
returns normally (without aborting on a counterexample), the final grid
equals the entry grid cell for cell: every cell the call assigned is
cleared back to the unassigned sentinel.  (Without the suffix-unassigned
hypothesis the property fails: see `backtr_not_frame_on_assigned`.) -/
theorem backtr_frame (fuel : Nat) (g : Grid) (C r c : Nat) (g' : Grid)
    (hrows : UniformRows g) (hsuffix : SuffixEmpty g r c)
    (h : backtr fuel g C r c = some (g', false)) : g' = g :=
  backtr_frame_core fuel g C r c g' hrows hsuffix h

/-- C9 counterexample: called on the 1×1 grid whose cell `(0,0)` is
already assigned `[0]` (with `C = 1`), `backtr` returns normally (no
abort), yet the final grid is not the entry grid: the call overwrote the
cell in its assignment loop and cleared it to `EmptyProf` on the way
out. -/
theorem backtr_not_frame_on_assigned :
    backtr 4 [[[0]]] 1 0 0 = some ([[EmptyProf]], false) ∧
    ([[EmptyProf]] : Grid) ≠ [[[0]]] := by decide

/-- Witness for `backtr_frame`: the 1×1 search with `C = 1` from the
all-unassigned grid returns normally with the grid restored. -/
theorem backtr_frame_witness :
    UniformRows (initGrid 1 1) ∧ SuffixEmpty (initGrid 1 1) 0 0 ∧
    backtr 4 (initGrid 1 1) 1 0 0 = some (initGrid 1 1, false) ∧
    (initGrid 1 1 : Grid) = initGrid 1 1 := by
  have hu : UniformRows (initGrid 1 1) := by
    intro row hrow
    rcases List.mem_replicate.1 hrow with ⟨_, rfl⟩
    decide
  have hs : SuffixEmpty (initGrid 1 1) 0 0 := by
    intro i j hi hj hij
    have h1 : i < 1 := by simpa [gridN, initGrid] using hi
    have h2 : j < 1 := by simpa [gridM, initGrid] using hj
    interval_cases i
    interval_cases j
    decide
  have hb : backtr 4 (initGrid 1 1) 1 0 0 = some (initGrid 1 1, false) := by decide
  exact ⟨hu, hs, hb, backtr_frame 4 (initGrid 1 1) 1 0 0 (initGrid 1 1) hu hs hb⟩

/- The search invariant holds initially and is preserved by every
recursive call. -/

theorem cellOf_initGrid (N M i j : Nat) : cellOf (initGrid N M) i j = EmptyProf := by
  unfold cellOf initGrid
  by_cases hi : i < N
  · rw [List.getD_eq_getElem _ [] (by rw [List.length_replicate]; exact hi),
      List.getElem_replicate]
    by_cases hj : j < M
    · rw [List.getD_eq_getElem _ EmptyProf (by rw [List.length_replicate]; exact hj),
        List.getElem_replicate]
    · exact getD_of_length_le (by rw [List.length_replicate]; omega) EmptyProf
  · rw [getD_of_length_le (by rw [List.length_replicate]; omega) ([] : List Pref)]
    rfl

theorem searchInv_init (C N M : Nat) : SearchInv C (initGrid N M, 0, 0) := by
  refine ⟨?_, Nat.zero_le _, Nat.zero_le _, ?_, ?_⟩
  · intro row hrow
    rcases List.mem_replicate.1 hrow with ⟨hN0, rfl⟩
    unfold gridM initGrid
    cases N with
    | zero => exact absurd rfl hN0
    | succ n => simp [List.replicate_succ]
  · intro i j hi hj hij
    rcases hij with h1 | ⟨_, h2⟩
    · exact absurd h1 (Nat.not_lt_zero i)
    · exact absurd h2 (Nat.not_lt_zero j)
  · intro i j _ _ _
    exact cellOf_initGrid N M i j

theorem searchInv_step {C : Nat} {s t : Grid × Nat × Nat} (hc : Calls C s t)
    (hinv : SearchInv C s) : SearchInv C t := by
  cases hc with
  | nextRow g r hv hr =>
    obtain ⟨hu, hrN, hcM, hpre, hsuf⟩ := hinv
    simp only at hu hrN hcM hpre hsuf
    refine ⟨hu, ?_, Nat.zero_le _, ?_, ?_⟩
    · simp only
      have : r < gridN g := lt_of_le_of_ne hrN hr
      omega
    · intro i j hi hj hij
      simp only at hij ⊢
      apply hpre i j hi hj
      rcases hij with h1 | ⟨rfl, h2⟩
      · rcases Nat.lt_or_ge i r with h3 | h3
        · exact Or.inl h3
        · have hir : i = r := by omega
          subst hir
          exact Or.inr ⟨rfl, hj⟩
      · omega
    · intro i j hi hj hij
      simp only at hij ⊢
      apply hsuf i j hi hj
      left
      rcases hij with h1 | ⟨rfl, _⟩ <;> omega
  | assignCell g r c p hv hr hc2 hp =>
    obtain ⟨hu, hrN, hcM, hpre, hsuf⟩ := hinv
    simp only at hu hrN hcM hpre hsuf
    have hrlt : r < gridN g := lt_of_le_of_ne hrN hr
    have hclt : c < gridM g := lt_of_le_of_ne hcM hc2
    have hrowlen : (g.getD r []).length = gridM g := by
      apply hu
      rw [List.getD_eq_getElem g [] hrlt]
      exact List.getElem_mem hrlt
    have hcell : cellOf (setCell g r c p) r c = p :=
      cellOf_setCell_self g p hrlt (by omega)
    have hp2 := hp
    have hpperm : p.Perm (List.range C) := by
      unfold cellAssignments at hp2
      split_ifs at hp2 with h00
      · rw [List.mem_singleton] at hp2
        subst hp2
        exact List.Perm.refl _
      · exact mem_permSeq.1 hp2
    refine ⟨uniformRows_setCell hu r c p, ?_, ?_, ?_, ?_⟩
    · simp only
      rw [gridN_setCell]
      omega
    · simp only
      rw [gridM_setCell]
      omega
    · intro i j hi hj hij
      simp only [gridN_setCell] at hi
      simp only [gridM_setCell] at hj
      simp only at hij ⊢
      by_cases hne : r = i ∧ c = j
      · obtain ⟨rfl, rfl⟩ := hne
        constructor
        · rw [hcell]
          exact hpperm
        · intro hi0 hj0
          rw [hcell]
          subst hi0
          subst hj0
          unfold cellAssignments at hp
          rw [if_pos ⟨rfl, rfl⟩, List.mem_singleton] at hp
          exact hp
      · rw [cellOf_setCell_ne g p hne]
        apply hpre i j hi hj
        rcases hij with h1 | ⟨rfl, h2⟩
        · exact Or.inl h1
        · right
          refine ⟨rfl, ?_⟩
          rcases Nat.lt_or_ge j c with h3 | h3
          · exact h3
          · exfalso
            exact hne ⟨rfl, by omega⟩
    · intro i j hi hj hij
      simp only [gridN_setCell] at hi
      simp only [gridM_setCell] at hj
      simp only at hij ⊢
      rw [cellOf_setCell_ne g p ?_]
      · apply hsuf i j hi hj
        rcases hij with h1 | ⟨rfl, h2⟩
        · exact Or.inl h1
        · exact Or.inr ⟨rfl, by omega⟩
      · rintro ⟨rfl, rfl⟩
        rcases hij with h1 | ⟨_, h2⟩ <;> omega

theorem searchInv_reaches {C N M : Nat} {s : Grid × Nat × Nat}
    (h : Reaches C N M s) : SearchInv C s := by
  unfold Reaches at h
  induction h with
  | refl => exact searchInv_init C N M
  | tail h1 h2 ih => exact searchInv_step h2 ih

/-- C10 (row-major prefix invariant): in every configuration
`(g, r, c)` of `backtr` reachable from the initial call on the
all-unassigned `N×M` grid, every in-range cell strictly before `(r, c)`
in row-major order holds a full permutation of `{0..C-1}` (with cell
`(0,0)` holding the identity), and every in-range cell at or after
`(r, c)` is the unassigned sentinel; hence at a leaf (`r = N`) the grid
is complete, so the dominance-box scans run there never read an
unassigned cell (the faulting embedding agrees with the total one). -/
theorem backtr_reachable_invariant (C N M : Nat) (hC : 0 < C) (g : Grid) (r c : Nat)
    (h : Reaches C N M (g, r, c)) :
    (∀ i j, i < gridN g → j < gridM g → (i < r ∨ (i = r ∧ j < c)) →
      (cellOf g i j).Perm (List.range C) ∧
        (i = 0 → j = 0 → cellOf g i j = List.range C)) ∧
    (∀ i j, i < gridN g → j < gridM g → (r < i ∨ (r = i ∧ c ≤ j)) →
      cellOf g i j = EmptyProf) ∧
    (r = gridN g →
      (∀ i j, i < gridN g → j < gridM g → (cellOf g i j).Perm (List.range C)) ∧
      (∀ c', get_dominance_box? g c' = some (get_dominance_box g c'))) := by
  obtain ⟨hu, hrN, hcM, hpre, hsuf⟩ := searchInv_reaches h
  refine ⟨hpre, hsuf, ?_⟩
  intro hleaf
  have hcomplete : ∀ i j, i < gridN g → j < gridM g →
      (cellOf g i j).Perm (List.range C) := by
    intro i j hi hj
    exact (hpre i j hi hj (Or.inl (show i < r by omega))).1
  refine ⟨hcomplete, ?_⟩
  intro c'
  apply get_dominance_box?_eq_some
  intro i j hi hj hcell
  have hperm := hcomplete i j hi hj
  rw [hcell] at hperm
  have hlen := hperm.length_eq
  rw [List.length_range] at hlen
  have hlen2 : (0 : Nat) = C := hlen
  omega

/-- Witness for `backtr_reachable_invariant` at the initial
configuration of the 1×1, C = 1 search. -/
theorem backtr_reachable_invariant_witness :
    (0 : Nat) < 1 ∧ Reaches 1 1 1 (initGrid 1 1, 0, 0) ∧
    cellOf (initGrid 1 1) 0 0 = EmptyProf := by
  refine ⟨by decide, Relation.ReflTransGen.refl, ?_⟩
  have h := (backtr_reachable_invariant 1 1 1 (by decide) (initGrid 1 1) 0 0
    Relation.ReflTransGen.refl).2.1
  exact h 0 0 (by decide) (by decide) (Or.inr ⟨rfl, Nat.le_refl 0⟩)
